import Mathlib

set_option maxHeartbeats 1000000

/-!
Shallow embedding of the numeric and control logic of the Blender add-on
"Locomotion Auto Animator" (`laa_addon`), together with theorems checking its
natural-language specification.  Machine floats of the Python source are
modelled by exact rationals; a Python function that can raise an exception is
modelled as returning an `Option`, with `none` standing for the raised
exception.
-/

/-! ### `animation_path.py`: the `AnimationPath` class -/

/-- Animation reference returned by `AnimationPath.get_animation_state_at_frame`:
either a single pose/animation name or a pair of names being blended. -/
inductive AnimRef : Type
| single (a : String)
| pair (a b : String)
deriving DecidableEq

/-- Embeds the data carried by an `AnimationPath` object of `animation_path.py`.
`mathutils.Vector` positions are modelled as rational triples. -/
structure AnimationPath where
  start_pos : ℚ × ℚ × ℚ
  start_frame : ℚ
  end_pos : ℚ × ℚ × ℚ
  end_frame : ℚ
  start_pose : String
  end_pose : String
  anim : String
  start_blend_frames : ℚ
  end_blend_frames : ℚ
  anim_speed_mult : ℚ
deriving DecidableEq

/-- Embeds `AnimationPath.__init__`.  The two `raise ValueError` statements of the
source (`start_frame >= end_frame`, and
`start_blend_frames + end_blend_frames > end_frame - start_frame`) are modelled
by returning `none`. -/
def AnimationPath.make (sp : ℚ × ℚ × ℚ) (sf : ℚ) (ep : ℚ × ℚ × ℚ) (ef : ℚ)
    (spose epose an : String) (sbf ebf mult : ℚ) : Option AnimationPath :=
  if ef ≤ sf then none
  else if ef - sf < sbf + ebf then none
  else some ⟨sp, sf, ep, ef, spose, epose, an, sbf, ebf, mult⟩

/-- Embeds the `duration` property. -/
def AnimationPath.duration (p : AnimationPath) : ℚ := p.end_frame - p.start_frame

/-- Embeds the `main_anim_start_frame` property. -/
def AnimationPath.main_anim_start_frame (p : AnimationPath) : ℚ :=
  p.start_frame + p.start_blend_frames

/-- Embeds the `main_anim_end_frame` property. -/
def AnimationPath.main_anim_end_frame (p : AnimationPath) : ℚ :=
  p.end_frame - p.end_blend_frames

/-- Embeds `AnimationPath.get_animation_state_at_frame`.  The two divisions of the
source (`/ self.start_blend_frames` and `/ self.end_blend_frames`) are guarded:
a division by zero (a Python `ZeroDivisionError`) is modelled by `none`. -/
def AnimationPath.get_animation_state_at_frame (p : AnimationPath) (frame : ℚ) :
    Option (AnimRef × ℚ) :=
  if frame < p.start_frame then some (.single p.start_pose, 1)
  else if p.end_frame < frame then some (.single p.end_pose, 1)
  else if frame < p.main_anim_start_frame then
    if p.start_blend_frames = 0 then none
    else some (.pair p.start_pose p.anim, (frame - p.start_frame) / p.start_blend_frames)
  else if frame ≤ p.main_anim_end_frame then some (.single p.anim, 1)
  else
    if p.end_blend_frames = 0 then none
    else some (.pair p.anim p.end_pose, (frame - p.main_anim_end_frame) / p.end_blend_frames)

/-! ### `animation_library.py`: speed segments (`convert_speed_data_to_segments`) -/

/-- One segment dictionary as built by `convert_speed_data_to_segments` and
consumed by `_calculate_discrete_speed_changes`. -/
structure SpeedSegment where
  start_frame : ℚ
  end_frame : ℚ
  speed_multiplier : ℚ
  blend_frames : ℚ
deriving DecidableEq

/-- Dictionary lookup `speed_curve_data[frame]`, with the dict modelled as an
association list.  The source only looks up keys that are present, so the
fallback `0` is never reached in the modelled runs. -/
def lookupSpeed (entries : List (ℚ × ℚ)) (f : ℚ) : ℚ :=
  ((entries.find? (fun p => p.1 == f)).map Prod.snd).getD 0

/-- The body of the `for i, frame in enumerate(frames)` loop of
`convert_speed_data_to_segments`, acting on the state
`(current_segment_start, current_speed, segments)`.  `speed_tolerance` is the
source's fixed `0.03`, `lastIdx` is `len(frames) - 1`. -/
def convertStep (entries : List (ℚ × ℚ)) (end_frame msf : ℚ) (lastIdx : ℕ)
    (acc : ℚ × ℚ × List SpeedSegment) (iframe : ℕ × ℚ) : ℚ × ℚ × List SpeedSegment :=
  let i := iframe.1
  let frame := iframe.2
  if i = 0 then acc
  else
    let css := acc.1
    let cs := acc.2.1
    let segs := acc.2.2
    let frame_speed := lookupSpeed entries frame
    let speed_change := |frame_speed - cs|
    let segment_length := frame - css
    if (3/100 < speed_change ∧ msf ≤ segment_length) ∨ i = lastIdx then
      let segment_end := if i = lastIdx then end_frame else frame - 1
      let segs2 := if css ≤ segment_end then segs ++ [⟨css, segment_end, cs, 0⟩] else segs
      if i < lastIdx then (frame, frame_speed, segs2) else (css, cs, segs2)
    else acc

/-- The adjacency post-pass of `convert_speed_data_to_segments`
(`segments[i+1]['start_frame'] = segments[i]['end_frame'] + 1` for each `i`),
carried out from a given previous segment. -/
def ensureAdjacentAux (prev : SpeedSegment) : List SpeedSegment → List SpeedSegment
  | [] => []
  | t :: rest =>
    let t2 := { t with start_frame := prev.end_frame + 1 }
    t2 :: ensureAdjacentAux t2 rest

/-- The adjacency post-pass of `convert_speed_data_to_segments`: every segment
after the first has its start forced to the previous segment's end plus one. -/
def ensureAdjacent : List SpeedSegment → List SpeedSegment
  | [] => []
  | s :: rest => s :: ensureAdjacentAux s rest

/-- The final post-pass of `convert_speed_data_to_segments`
(`segments[-1]['end_frame'] = end_frame`): the last segment is forced to end at
`end_frame`. -/
def setLastEnd (ef : ℚ) (l : List SpeedSegment) : List SpeedSegment :=
  match l.getLast? with
  | none => []
  | some s => l.dropLast ++ [{ s with end_frame := ef }]

/-- Embeds `convert_speed_data_to_segments` of `animation_library.py` (the
`speed_curve_data` dict is an association list; `frames = sorted(keys)`). -/
def convert_speed_data_to_segments (entries : List (ℚ × ℚ))
    (start_frame end_frame : ℚ) (min_segment_frames : ℚ) : List SpeedSegment :=
  if entries = [] then []
  else
    let frames := (entries.map Prod.fst).insertionSort (· ≤ ·)
    if frames = [] then []
    else
      let cs0 := lookupSpeed entries (frames.getD 0 0)
      let st := frames.enum.foldl
        (convertStep entries end_frame min_segment_frames (frames.length - 1))
        (start_frame, cs0, [])
      let segs := st.2.2
      let segs2 := if segs = [] then [⟨start_frame, end_frame, st.2.1, 0⟩] else segs
      setLastEnd end_frame (ensureAdjacent segs2)

/-! ### `animation_library.py`: discrete speed changes -/

/-- One discrete speed-change dictionary produced by
`_calculate_discrete_speed_changes`. -/
structure SpeedChange where
  timeline_start : ℚ
  timeline_end : ℚ
  speed : ℚ
  strip_duration : ℚ
  loop_cycles : ℚ
deriving DecidableEq

/-- The 2% speed-change test guarding strip creation
(`last_speed is None or abs(speed - last_speed) > 0.02`). -/
def significantChange : Option ℚ → ℚ → Bool
  | none, _ => true
  | some ls, s => decide (1/50 < |s - ls|)

/-- `speed_data[-1]['end_frame']`: the timeline end of a segment list. -/
def timelineEnd (speed_data : List SpeedSegment) : ℚ :=
  (speed_data.getLast?.map SpeedSegment.end_frame).getD 0

/-- The strip-creation loop of `_calculate_discrete_speed_changes`, walking the
speed segments with state `(current_timeline_pos, last_speed)`.  The `break`
when the remaining timeline is exhausted is modelled by dropping the rest of
the list. -/
def calcChanges (tEnd aLen : ℚ) : List SpeedSegment → ℚ → Option ℚ → List SpeedChange
  | [], _, _ => []
  | seg :: rest, pos, lastSpeed =>
    let speed := seg.speed_multiplier
    if significantChange lastSpeed speed then
      if tEnd - pos + 1 ≤ 0 then []
      else
        let d0 := aLen / speed
        let d := if tEnd + 1 < pos + d0 then tEnd - pos + 1 else d0
        ⟨pos, pos + d - 1, speed, d, d / (aLen / speed)⟩ ::
          calcChanges tEnd aLen rest (pos + d) (some speed)
    else calcChanges tEnd aLen rest pos lastSpeed

/-- The final adjustment of `_calculate_discrete_speed_changes`: if the last
strip stops short of the timeline end it is extended to reach it, updating
`strip_duration` and `loop_cycles`. -/
def extendFinal (tEnd aLen : ℚ) (changes : List SpeedChange) : List SpeedChange :=
  match changes.getLast? with
  | none => changes
  | some lastc =>
    if lastc.timeline_end < tEnd then
      let adjustment := tEnd - lastc.timeline_end
      changes.dropLast ++ [{ lastc with
        timeline_end := tEnd,
        strip_duration := lastc.strip_duration + adjustment,
        loop_cycles := (lastc.strip_duration + adjustment) / (aLen / lastc.speed) }]
    else changes

/-- Embeds `_calculate_discrete_speed_changes` of `animation_library.py`. -/
def calculate_discrete_speed_changes (speed_data : List SpeedSegment)
    (action_length : ℚ) : List SpeedChange :=
  match speed_data with
  | [] => []
  | first :: rest =>
    let tEnd := timelineEnd (first :: rest)
    extendFinal tEnd action_length
      (calcChanges tEnd action_length (first :: rest) first.start_frame none)

/-! ### `animation_library.py`: action loop ranges and NLA strips -/

/-- A `BlenderAction` (a bpy `Action` datablock) as read by `get_action_loop_range`: its keyframe
`frame_range` and the optional `loop_start`/`loop_end` custom properties (both
present or both absent in every write the source performs). -/
structure BlenderAction where
  frame_range : ℚ × ℚ
  loop_props : Option (ℚ × ℚ)
deriving DecidableEq

/-- Embeds `get_action_loop_range` of `animation_library.py`.  `none` for the
action models a falsy `action`.  Python truthiness is preserved: in
`default_length or 100` and `if default_length and ...` the values `None` and
`0` are falsy. -/
def get_action_loop_range (action : Option BlenderAction) (default_length : Option ℚ) : ℚ × ℚ :=
  match action with
  | none =>
    (0, match default_length with
        | none => 100
        | some d => if d = 0 then 100 else d)
  | some a =>
    match a.loop_props with
    | some lp => lp
    | none =>
      let action_start := a.frame_range.1
      let action_end := a.frame_range.2
      match default_length with
      | some dl =>
        if dl ≠ 0 ∧ dl * 2 < action_end - action_start then (action_start, action_start + dl)
        else (action_start, action_end)
      | none => (action_start, action_end)

/-- Python `int()`: truncation of a rational toward zero. -/
def pyInt (q : ℚ) : ℤ := if 0 ≤ q then ⌊q⌋ else ⌈q⌉

/-- The custom properties read off the path object by
`create_discrete_speed_nla_strips`, with their `path_obj.get` defaults. -/
structure PathProps where
  start_pose : String
  end_pose : String
  anim : String
  default_loop_length : ℚ
  anim_speed_mult : ℚ
  start_blend_frames : ℚ
  end_blend_frames : ℚ
deriving DecidableEq

/-- The fields of an NLA strip assigned by `create_discrete_speed_nla_strips`.
A freshly created Blender strip has `blend_in = blend_out = 0`; the source only
overwrites these on the first and the last strip. -/
structure NlaStrip where
  scale : ℚ
  action_frame_start : ℚ
  action_frame_end : ℚ
  frame_start : ℤ
  frame_end : ℤ
  blend_type : String
  extrapolation : String
  blend_in : ℚ
  blend_out : ℚ
deriving DecidableEq

/-- Builds the `i`-th NLA strip for a speed change, as in the strip loop of
`create_discrete_speed_nla_strips` (`n` is the number of speed changes). -/
def buildStrip (pp : PathProps) (action_start action_end : ℚ) (n : ℕ) (i : ℕ)
    (change : SpeedChange) : NlaStrip :=
  { scale := 1 / (change.speed * pp.anim_speed_mult)
    action_frame_start := action_start
    action_frame_end := action_end
    frame_start := pyInt change.timeline_start
    frame_end := pyInt change.timeline_end
    blend_type := "REPLACE"
    extrapolation := "HOLD_FORWARD"
    blend_in := if i = 0 then (if pp.start_pose ≠ "NONE" then pp.start_blend_frames else 0) else 0
    blend_out := if i = n - 1 then (if pp.end_pose ≠ "NONE" then pp.end_blend_frames else 0) else 0 }

/-- Embeds the strip-building part of `create_discrete_speed_nla_strips` of
`animation_library.py`: `none` models the `return False` paths (no animation
selected, animation failed to load — modelled by `main_action = none` —, or no
speed changes).  Host-side effects (NLA-track lookup, base/end pose tracks) do
not affect the strips produced. -/
def create_discrete_speed_nla_strips (pp : PathProps) (main_action : Option BlenderAction)
    (speed_data : List SpeedSegment) : Option (List NlaStrip) :=
  if pp.anim = "NONE" then none
  else
    match main_action with
    | none => none
    | some act =>
      let sr := get_action_loop_range (some act) (some pp.default_loop_length)
      let action_length := sr.2 - sr.1
      let changes := calculate_discrete_speed_changes speed_data action_length
      if changes = [] then none
      else some (changes.enum.map (fun ic => buildStrip pp sr.1 sr.2 changes.length ic.1 ic.2))

/-! ### `animation_operators_utils.py`: `apply_speed_control` -/

/-- One interior-sample curvature of `apply_speed_control`, computed from the
deviation (in degrees) of the triplet turn angle from 90°: deviations under the
fixed `min_deviation = 2.0` degrees count as straight (`0`), larger deviations
are normalised by the maximal possible deviation of 90°.  The deviation itself
is `abs(degrees(pi - acos(dot)) - 90)` over the sampled positions; its
trigonometry is irrational, so the pipeline is parameterised by the list of
deviations at the interior samples. -/
def curvatureOfDeviation (dev : ℚ) : ℚ := if dev < 2 then 0 else dev / 90

/-- The interior-sample curvature list
(`for i in range(step, len(positions) - step)`). -/
def computeCurvatures (devs : List ℚ) : List ℚ := devs.map curvatureOfDeviation

/-- The edge handling of `apply_speed_control`: the first curvature is
duplicated in front and the last appended at the back; with no interior samples
the list is `[0.0] * len(positions)`. -/
def addEdgeCurvatures (numPositions : ℕ) : List ℚ → List ℚ
  | [] => List.replicate numPositions 0
  | c :: rest => c :: c :: rest ++ [(c :: rest).getLast (List.cons_ne_nil c rest)]

/-- `apply_speed_control`'s thresholding: curvatures below `curvature_threshold`
become `0`. -/
def thresholdCurvatures (thr : ℚ) (cs : List ℚ) : List ℚ :=
  cs.map (fun c => if c < thr then 0 else c)

/-- The centred moving average of `apply_speed_control` (`window_size = 10`;
the averaged slice is `max(0, i - 5) .. min(n, i + 5 + 1)`). -/
def windowAvg (cs : List ℚ) (i : ℕ) : ℚ :=
  let s := i - 5
  let e := min cs.length (i + 6)
  ((cs.drop s).take (e - s)).sum / ((e - s : ℕ) : ℚ)

/-- The smoothing pass of `apply_speed_control`. -/
def smoothCurvatures (cs : List ℚ) : List ℚ :=
  (List.range cs.length).map (windowAvg cs)

/-- Python `min(list)` (the source only calls it on non-empty lists). -/
def listMin : List ℚ → ℚ
  | [] => 0
  | c :: rest => rest.foldl min c

/-- Python `max(list)` (the source only calls it on non-empty lists). -/
def listMax : List ℚ → ℚ
  | [] => 0
  | c :: rest => rest.foldl max c

/-- The curvature-to-speed inversion of `apply_speed_control`: speed `1` for a
straight sample (`curvature == 0.0`), otherwise `1 - (c - min) / (max - min)`,
all under `max > min and max > 0`; otherwise the constant fallback
`[1.0] * len`; for an empty smoothed list the source sets `speeds = [1.0]`. -/
def curvaturesToSpeeds (cs : List ℚ) : List ℚ :=
  match cs with
  | [] => [1]
  | c0 :: rest =>
    let mn := listMin (c0 :: rest)
    let mx := listMax (c0 :: rest)
    if mn < mx ∧ 0 < mx then
      (c0 :: rest).map (fun c => if c = 0 then 1 else 1 - (c - mn) / (mx - mn))
    else List.replicate (c0 :: rest).length 1

/-- The smoothed curvature list of `apply_speed_control` for a curve whose
interior samples have turn-angle deviations `devs` (`numPositions` stands for
`len(positions)`, used only when there are no interior samples). -/
def smoothedCurvatureList (thr : ℚ) (numPositions : ℕ) (devs : List ℚ) : List ℚ :=
  smoothCurvatures (thresholdCurvatures thr
    (addEdgeCurvatures numPositions (computeCurvatures devs)))

/-- The speed profile computed by `apply_speed_control`. -/
def speedProfile (thr : ℚ) (numPositions : ℕ) (devs : List ℚ) : List ℚ :=
  curvaturesToSpeeds (smoothedCurvatureList thr numPositions devs)

/-- The per-segment distances of `apply_speed_control`: the average of adjacent
speeds mapped affinely into `[min_speed_factor, max_speed_factor]`. -/
def segmentDistances (minf maxf : ℚ) (speeds : List ℚ) : List ℚ :=
  (List.range (speeds.length - 1)).map (fun i =>
    minf + ((speeds.getD i 0 + speeds.getD (i + 1) 0) / 2) * (maxf - minf))

/-- The cumulative distances of `apply_speed_control` (`[0.0]` followed by the
running sums of the segment distances). -/
def cumulativeDistances (ds : List ℚ) : List ℚ := List.scanl (· + ·) 0 ds

/-- The normalisation of the cumulative distances to `[0, 1]`; the fallback for
a non-positive total is the uniform parameterisation (its division by `len - 1`
is only reached with more than one sample in the modelled runs). -/
def normalizedPositions (cum : List ℚ) : List ℚ :=
  let total := cum.getLast?.getD 0
  if 0 < total then cum.map (· / total)
  else (List.range cum.length).map (fun (i : ℕ) => (i : ℚ) / ((cum.length : ℚ) - 1))

/-- The per-frame interpolated position of `apply_speed_control`'s keyframing
loop: the first bracket `[t1, t2]` containing `frame_progress` is linearly
interpolated (`local_t` guarded by `t2 > t1`); without a bracket the position
stays at `frame_progress`. -/
def frameProgressPosition (np : List ℚ) (fp : ℚ) : ℚ :=
  match (List.range (np.length - 1)).find? (fun (i : ℕ) =>
      decide ((i : ℚ) / ((np.length : ℚ) - 1) ≤ fp) &&
      decide (fp ≤ ((i : ℚ) + 1) / ((np.length : ℚ) - 1))) with
  | none => fp
  | some i =>
    let t1 : ℚ := (i : ℚ) / ((np.length : ℚ) - 1)
    let t2 : ℚ := ((i : ℚ) + 1) / ((np.length : ℚ) - 1)
    let lt : ℚ := if t1 < t2 then (fp - t1) / (t2 - t1) else 0
    np.getD i 0 + lt * (np.getD (i + 1) 0 - np.getD i 0)

/-- The clamped `offset_factor` values keyframed by `apply_speed_control`, one
per frame offset in `0 .. total_frames`
(`position = max(0.0, min(1.0, position))`). -/
def offsetFactors (np : List ℚ) (totalFrames : ℕ) : List ℚ :=
  (List.range (totalFrames + 1)).map (fun (fo : ℕ) =>
    max 0 (min 1 (frameProgressPosition np ((fo : ℚ) / (totalFrames : ℚ)))))

/-- C1's pipeline properties of the speed profile, for a given threshold,
position count and interior deviation list. -/
def SpeedPipelineProps (thr : ℚ) (numPos : ℕ) (devs : List ℚ) : Prop :=
  (∀ i, i < devs.length →
    (computeCurvatures devs).getD i 0 =
      (if devs.getD i 0 < 2 then 0 else devs.getD i 0 / 90))
  ∧ (speedProfile thr numPos devs =
      curvaturesToSpeeds (smoothCurvatures (thresholdCurvatures thr
        (addEdgeCurvatures numPos (computeCurvatures devs)))))
  ∧ (∀ i, i < (smoothedCurvatureList thr numPos devs).length →
      (smoothedCurvatureList thr numPos devs).getD i 0 = 0 →
      (speedProfile thr numPos devs).getD i 1 = 1)
  ∧ (listMin (smoothedCurvatureList thr numPos devs) <
        listMax (smoothedCurvatureList thr numPos devs) →
      0 < listMax (smoothedCurvatureList thr numPos devs) →
      ∀ i, i < (smoothedCurvatureList thr numPos devs).length →
        (smoothedCurvatureList thr numPos devs).getD i 0 ≠ 0 →
        (speedProfile thr numPos devs).getD i 1 =
          1 - ((smoothedCurvatureList thr numPos devs).getD i 0 -
                listMin (smoothedCurvatureList thr numPos devs)) /
              (listMax (smoothedCurvatureList thr numPos devs) -
                listMin (smoothedCurvatureList thr numPos devs)))
  ∧ (smoothedCurvatureList thr numPos devs ≠ [] →
      (listMin (smoothedCurvatureList thr numPos devs) =
          listMax (smoothedCurvatureList thr numPos devs) ∨
        listMax (smoothedCurvatureList thr numPos devs) ≤ 0) →
      speedProfile thr numPos devs =
        List.replicate (smoothedCurvatureList thr numPos devs).length 1)

/-- C7's monotone-reparameterisation properties of the integration step of
`apply_speed_control`. -/
def SpeedReparamProps (thr minf maxf : ℚ) (numPos totalFrames : ℕ)
    (devs : List ℚ) : Prop :=
  List.Chain' (· < ·)
    (cumulativeDistances (segmentDistances minf maxf (speedProfile thr numPos devs)))
  ∧ (normalizedPositions (cumulativeDistances
      (segmentDistances minf maxf (speedProfile thr numPos devs)))).head? = some 0
  ∧ (normalizedPositions (cumulativeDistances
      (segmentDistances minf maxf (speedProfile thr numPos devs)))).getLast? = some 1
  ∧ List.Chain' (· ≤ ·) (normalizedPositions (cumulativeDistances
      (segmentDistances minf maxf (speedProfile thr numPos devs))))
  ∧ ∀ x ∈ offsetFactors (normalizedPositions (cumulativeDistances
      (segmentDistances minf maxf (speedProfile thr numPos devs)))) totalFrames,
      0 ≤ x ∧ x ≤ 1

/-! ### `keyframe_reduction.py`: Douglas-Peucker reduction -/

/-- Exact square root on perfect-square rationals.  The source's
`perpendicular_distance` uses `math.sqrt`, which is irrational in general; the
algorithm below is therefore parameterised by the distance function, and this
exact instance is only used on concrete inputs whose radicands are perfect
squares (or whose numerator is `0`, where the branch value is `0` for any
positive denominator). -/
def ratSqrt (q : ℚ) : ℚ := (Nat.sqrt q.num.toNat : ℚ) / (Nat.sqrt q.den : ℚ)

/-- Embeds `perpendicular_distance` of `douglas_peucker_reduce`, with `ratSqrt`
in place of `math.sqrt` (see `ratSqrt`): the zero-length guard, then
`|num| / sqrt(den)` guarded by `denominator > 0` with fallback `0`. -/
def perpendicular_distance (p ls le : ℚ × ℚ) : ℚ :=
  if ls.1 = le.1 ∧ ls.2 = le.2 then
    ratSqrt ((p.1 - ls.1) ^ 2 + (p.2 - ls.2) ^ 2)
  else
    let num := |(le.2 - ls.2) * p.1 - (le.1 - ls.1) * p.2 + le.1 * ls.2 - le.2 * ls.1|
    let den := ratSqrt ((le.2 - ls.2) ^ 2 + (le.1 - ls.1) ^ 2)
    if 0 < den then num / den else 0

/-- The `max_distance`/`max_index` scan of `douglas_peucker_recursive`
(`for i in range(start_idx + 1, end_idx)`; the maximum is updated only on a
strict improvement, starting from `(0, start_idx)`). -/
def findMaxDist (pd : (ℚ × ℚ) → (ℚ × ℚ) → (ℚ × ℚ) → ℚ) (points : List (ℚ × ℚ))
    (s e : ℕ) : ℚ × ℕ :=
  (List.range' (s + 1) (e - (s + 1))).foldl
    (fun acc i =>
      let d := pd (points.getD i (0, 0)) (points.getD s (0, 0)) (points.getD e (0, 0))
      if acc.1 < d then (d, i) else acc)
    (0, s)

/-- Embeds `douglas_peucker_recursive` of `keyframe_reduction.py`,
parameterised by the distance function and a fuel bound on the recursion
depth; `none` models a Python `RecursionError` (for a negative tolerance the
source recursion need not terminate — see the C3 counterexample). -/
def douglas_peucker_recursive (pd : (ℚ × ℚ) → (ℚ × ℚ) → (ℚ × ℚ) → ℚ)
    (points : List (ℚ × ℚ)) (tol : ℚ) : ℕ → ℕ → ℕ → Option (List ℕ)
  | 0, _, _ => none
  | fuel + 1, s, e =>
    if e ≤ s + 1 then some [s, e]
    else if tol < (findMaxDist pd points s e).1 then
      match douglas_peucker_recursive pd points tol fuel s (findMaxDist pd points s e).2,
          douglas_peucker_recursive pd points tol fuel (findMaxDist pd points s e).2 e with
      | some l, some r => some (l.dropLast ++ r)
      | _, _ => none
    else some [s, e]

/-- Embeds `douglas_peucker_reduce` of `keyframe_reduction.py`: the recursion
from `0` to `len(points) - 1` followed by `sorted(set(...))` (modelled by
`dedup` then `insertionSort`), with recursion fuel `len(points) + 1` — enough
for every terminating run of the source (see `douglas_peucker_fuel`); `none`
models a `RecursionError`. -/
def douglas_peucker_reduce (pd : (ℚ × ℚ) → (ℚ × ℚ) → (ℚ × ℚ) → ℚ)
    (points : List (ℚ × ℚ)) (tol : ℚ) : Option (List ℕ) :=
  if points.length < 2 then some (List.range points.length)
  else (douglas_peucker_recursive pd points tol (points.length + 1) 0
    (points.length - 1)).map (fun l => l.dedup.insertionSort (· ≤ ·))

/-! ### `keyframe_reduction.py`: Bezier handles and iterative refinement -/

/-- A keyframe of `keyframe_reduction.py` (`KeyframeData`): frame, value and
the optional Bezier handles (relative offsets) set by
`calculate_bezier_handles`; the constant `interpolation = 'BEZIER'` field is
never read and is omitted. -/
structure KeyframeData where
  frame : ℚ
  value : ℚ
  handle_left : Option (ℚ × ℚ)
  handle_right : Option (ℚ × ℚ)
deriving DecidableEq

/-- The handle assignment for the `i`-th keyframe in
`calculate_bezier_handles`: the tangent slope from the neighbours (guarded
`dy / dx if dx != 0 else 0`), handles at one third of the neighbour distances;
a missing neighbour leaves the corresponding handle unchanged (the source only
assigns `handle_left`/`handle_right` when the neighbour exists). -/
def handleized (kfs : List KeyframeData) (i : ℕ) (kf : KeyframeData) : KeyframeData :=
  let dflt : KeyframeData := ⟨0, 0, none, none⟩
  let prev : Option KeyframeData :=
    if i = 0 then none else some (kfs.getD (i - 1) dflt)
  let next : Option KeyframeData :=
    if i + 1 < kfs.length then some (kfs.getD (i + 1) dflt) else none
  let slope : ℚ :=
    match prev, next with
    | some p, some n =>
      if n.frame - p.frame = 0 then 0 else (n.value - p.value) / (n.frame - p.frame)
    | none, some n =>
      if n.frame - kf.frame = 0 then 0 else (n.value - kf.value) / (n.frame - kf.frame)
    | some p, none =>
      if kf.frame - p.frame = 0 then 0 else (kf.value - p.value) / (kf.frame - p.frame)
    | none, none => 0
  let hl : Option (ℚ × ℚ) :=
    match prev with
    | some p => some (-((kf.frame - p.frame) / 3), -((kf.frame - p.frame) / 3) * slope)
    | none => kf.handle_left
  let hr : Option (ℚ × ℚ) :=
    match next with
    | some n => some ((n.frame - kf.frame) / 3, ((n.frame - kf.frame) / 3) * slope)
    | none => kf.handle_right
  { kf with handle_left := hl, handle_right := hr }

/-- Embeds `calculate_bezier_handles` of `keyframe_reduction.py` (the
`frame_to_point` mapping of the source is dead code; `original_points` is
otherwise unused there); with fewer than 2 keyframes the list is returned
unchanged. -/
def calculate_bezier_handles (keyframes : List KeyframeData)
    (original_points : List (ℚ × ℚ)) : List KeyframeData :=
  if keyframes.length < 2 then keyframes
  else (List.range keyframes.length).map (fun i =>
    handleized keyframes i (keyframes.getD i ⟨0, 0, none, none⟩))

/-- Embeds `evaluate_cubic_bezier`: the cubic Bernstein combination of the
values; a missing handle degenerates its control value to the endpoint value. -/
def evaluate_cubic_bezier (start_kf end_kf : KeyframeData) (t : ℚ) : ℚ :=
  (1 - t) ^ 3 * start_kf.value
    + 3 * (1 - t) ^ 2 * t *
      (match start_kf.handle_right with
        | some h => start_kf.value + h.2
        | none => start_kf.value)
    + 3 * (1 - t) * t ^ 2 *
      (match end_kf.handle_left with
        | some h => end_kf.value + h.2
        | none => end_kf.value)
    + t ^ 3 * end_kf.value

/-- Embeds `evaluate_bezier_curve`: `num_samples` regular samples between
`start_frame` and `end_frame`; each sample is interpolated on the first
keyframe segment containing it (`t` guarded against equal frames), else
clamped to the first/last keyframe value; a sample matching no branch is
skipped (the source appends nothing). -/
def evaluate_bezier_curve (keyframes : List KeyframeData)
    (start_frame end_frame : ℚ) (num_samples : ℕ) : List (ℚ × ℚ) :=
  if keyframes.length < 2 then keyframes.map (fun kf => (kf.frame, kf.value))
  else
    (List.range num_samples).filterMap (fun (i : ℕ) =>
      let dflt : KeyframeData := ⟨0, 0, none, none⟩
      let frame_step : ℚ :=
        if 1 < num_samples then (end_frame - start_frame) / ((num_samples : ℚ) - 1) else 0
      let f := start_frame + (i : ℚ) * frame_step
      match (List.range (keyframes.length - 1)).find? (fun (j : ℕ) =>
          decide ((keyframes.getD j dflt).frame ≤ f) &&
          decide (f ≤ (keyframes.getD (j + 1) dflt).frame)) with
      | some j =>
        let sk := keyframes.getD j dflt
        let ek := keyframes.getD (j + 1) dflt
        let t : ℚ := if ek.frame = sk.frame then 0 else (f - sk.frame) / (ek.frame - sk.frame)
        some (f, evaluate_cubic_bezier sk ek t)
      | none =>
        if f ≤ (keyframes.getD 0 dflt).frame then some (f, (keyframes.getD 0 dflt).value)
        else if (keyframes.getLast?.getD dflt).frame ≤ f then
          some (f, (keyframes.getLast?.getD dflt).value)
        else none)

/-- Embeds `interpolate_value`; the source indexes `frames[0]` unconditionally,
so an empty `frames` (an `IndexError`) is modelled by `0` and never reached
under the theorems' hypotheses. -/
def interpolate_value (target_frame : ℚ) (frames : List ℚ) (values : List ℚ) : ℚ :=
  match frames with
  | [] => 0
  | f0 :: _ =>
    if target_frame ≤ f0 then values.getD 0 0
    else if (frames.getLast?.getD 0) ≤ target_frame then values.getLast?.getD 0
    else
      match (List.range (frames.length - 1)).find? (fun (i : ℕ) =>
          decide (frames.getD i 0 ≤ target_frame) &&
          decide (target_frame ≤ frames.getD (i + 1) 0)) with
      | some i =>
        values.getD i 0 +
          (if frames.getD (i + 1) 0 = frames.getD i 0 then 0
            else (target_frame - frames.getD i 0) / (frames.getD (i + 1) 0 - frames.getD i 0))
          * (values.getD (i + 1) 0 - values.getD i 0)
      | none => values.getD 0 0

/-- Embeds `calculate_curve_error`; the `float('inf')` returned for empty
inputs is modelled by `none`. -/
def calculate_curve_error (original approximated : List (ℚ × ℚ)) : Option ℚ :=
  if original = [] ∨ approximated = [] then none
  else some (original.foldl (fun m p =>
    max m |p.2 - interpolate_value p.1 (approximated.map Prod.fst)
      (approximated.map Prod.snd)|) 0)

/-- `max_error <= error_tolerance`, with `none` standing for `float('inf')`. -/
def errLE (me : Option ℚ) (tol : ℚ) : Bool :=
  match me with
  | none => false
  | some e => decide (e ≤ tol)

/-- The argmax-error scan of `iterative_refinement`: the first frame whose
interpolation error strictly exceeds all earlier ones, starting from
`(None, 0)`. -/
def findMaxErrorFrame (original : List (ℚ × ℚ)) (approxF approxV : List ℚ) : Option ℚ :=
  (original.foldl (fun acc p =>
    if acc.2 < |p.2 - interpolate_value p.1 approxF approxV| then
      (some p.1, |p.2 - interpolate_value p.1 approxF approxV|)
    else acc) ((none : Option ℚ), (0 : ℚ))).1

/-- The sorted insertion of `iterative_refinement`: the new keyframe is placed
before the first keyframe with a strictly larger frame, else appended. -/
def insertKeyframe (nk : KeyframeData) : List KeyframeData → List KeyframeData
  | [] => [nk]
  | k :: rest =>
    if nk.frame < k.frame then nk :: k :: rest else k :: insertKeyframe nk rest

/-- One iteration of the `for iteration in range(max_iterations)` loop of
`iterative_refinement`: `none` models every `break` (error within tolerance,
no maximum-error frame found, or no matching original point). -/
def refinement_step (original : List (ℚ × ℚ)) (tol : ℚ) (kfs : List KeyframeData) :
    Option (List KeyframeData) :=
  if errLE (calculate_curve_error original
      (evaluate_bezier_curve kfs (original.headD (0, 0)).1
        ((original.getLast?).getD (0, 0)).1 original.length)) tol then none
  else
    match findMaxErrorFrame original
        ((evaluate_bezier_curve kfs (original.headD (0, 0)).1
          ((original.getLast?).getD (0, 0)).1 original.length).map Prod.fst)
        ((evaluate_bezier_curve kfs (original.headD (0, 0)).1
          ((original.getLast?).getD (0, 0)).1 original.length).map Prod.snd) with
    | none => none
    | some fr =>
      match original.find? (fun p => p.1 == fr) with
      | none => none
      | some p =>
        some (calculate_bezier_handles (insertKeyframe ⟨p.1, p.2, none, none⟩ kfs) original)

/-- Embeds `iterative_refinement` of `keyframe_reduction.py`: at most
`max_iterations` iterations, each `break` returning the current keyframes. -/
def iterative_refinement (keyframes : List KeyframeData)
    (original_points : List (ℚ × ℚ)) (error_tolerance : ℚ) :
    ℕ → List KeyframeData
  | 0 => keyframes
  | maxIter + 1 =>
    match refinement_step original_points error_tolerance keyframes with
    | none => keyframes
    | some k => iterative_refinement k original_points error_tolerance maxIter

/-- C6's properties of `iterative_refinement`: immediate stop on convergence,
at most one insertion per iteration, frame-sortedness preserved, and each
successful iteration inserts exactly the original point at the maximum-error
frame. -/
def RefinementProps (kfs : List KeyframeData) (orig : List (ℚ × ℚ))
    (tol : ℚ) (maxIter : ℕ) : Prop :=
  (errLE (calculate_curve_error orig
      (evaluate_bezier_curve kfs (orig.headD (0, 0)).1
        ((orig.getLast?).getD (0, 0)).1 orig.length)) tol = true →
    iterative_refinement kfs orig tol maxIter = kfs)
  ∧ (iterative_refinement kfs orig tol maxIter).length ≤ kfs.length + maxIter
  ∧ List.Chain' (fun a b => a.frame ≤ b.frame) (iterative_refinement kfs orig tol maxIter)
  ∧ ∀ l, refinement_step orig tol kfs = some l →
      ∃ fr v, (fr, v) ∈ orig
        ∧ findMaxErrorFrame orig
            ((evaluate_bezier_curve kfs (orig.headD (0, 0)).1
              ((orig.getLast?).getD (0, 0)).1 orig.length).map Prod.fst)
            ((evaluate_bezier_curve kfs (orig.headD (0, 0)).1
              ((orig.getLast?).getD (0, 0)).1 orig.length).map Prod.snd) = some fr
        ∧ l.length = kfs.length + 1
        ∧ (l.map (fun k => (k.frame, k.value))).Perm
            ((fr, v) :: kfs.map (fun k => (k.frame, k.value)))

/-! ### Theorems -/

/-- C9: the `AnimationPath` constructor raises `ValueError` (modelled by `none`)
iff `start_frame ≥ end_frame` or
`start_blend_frames + end_blend_frames > end_frame - start_frame`; every
successfully constructed path has `duration > 0` and
`main_anim_start_frame ≤ main_anim_end_frame`. -/
theorem animationPath_init_valueError_iff (sp : ℚ × ℚ × ℚ) (sf : ℚ) (ep : ℚ × ℚ × ℚ)
    (ef : ℚ) (spose epose an : String) (sbf ebf mult : ℚ) :
    (AnimationPath.make sp sf ep ef spose epose an sbf ebf mult = none ↔
      ef ≤ sf ∨ ef - sf < sbf + ebf)
    ∧ (∀ p, AnimationPath.make sp sf ep ef spose epose an sbf ebf mult = some p →
        0 < p.duration ∧ p.main_anim_start_frame ≤ p.main_anim_end_frame) := by
  unfold AnimationPath.make
  constructor
  · split_ifs with h1 h2
    · simp [h1]
    · simp [h1, h2]
    · simp [h1, h2]
  · intro p hp
    split_ifs at hp with h1 h2
    obtain rfl : p = ⟨sp, sf, ep, ef, spose, epose, an, sbf, ebf, mult⟩ :=
      (Option.some_injective _ hp).symm
    refine ⟨?_, ?_⟩
    · simpa [AnimationPath.duration] using lt_of_not_le h1
    · simp only [AnimationPath.main_anim_start_frame, AnimationPath.main_anim_end_frame]
      have := not_lt.mp h2
      linarith

/-- Witness for C9 at a concrete input: `start_frame = 0`, `end_frame = 10`,
blend frames `2` and `3`. -/
theorem animationPath_init_valueError_iff_witness :
    0 < (AnimationPath.mk (0,0,0) 0 (1,0,0) 10 "A" "B" "walk" 2 3 1).duration ∧
    (AnimationPath.mk (0,0,0) 0 (1,0,0) 10 "A" "B" "walk" 2 3 1).main_anim_start_frame ≤
      (AnimationPath.mk (0,0,0) 0 (1,0,0) 10 "A" "B" "walk" 2 3 1).main_anim_end_frame :=
  (animationPath_init_valueError_iff (0,0,0) 0 (1,0,0) 10 "A" "B" "walk" 2 3 1).2 _ (by norm_num [AnimationPath.make])

/-- C10: for every successfully constructed `AnimationPath`,
`get_animation_state_at_frame` never divides by zero (`isSome` holds at every
frame); moreover when `start_blend_frames = 0` every frame reaching past the
`frame < start_frame` test lies outside the start-blend branch (such frames are
caught by `frame < start_frame`), and when `end_blend_frames = 0` every frame
with `frame ≤ end_frame` is caught by the `frame ≤ main_anim_end_frame` test. -/
theorem animationPath_state_no_div_by_zero (sp : ℚ × ℚ × ℚ) (sf : ℚ) (ep : ℚ × ℚ × ℚ)
    (ef : ℚ) (spose epose an : String) (sbf ebf mult : ℚ) (p : AnimationPath)
    (h : AnimationPath.make sp sf ep ef spose epose an sbf ebf mult = some p) :
    (∀ frame : ℚ, (p.get_animation_state_at_frame frame).isSome)
    ∧ (p.start_blend_frames = 0 →
        ∀ frame : ℚ, frame < p.main_anim_start_frame → frame < p.start_frame)
    ∧ (p.end_blend_frames = 0 →
        ∀ frame : ℚ, frame ≤ p.end_frame → frame ≤ p.main_anim_end_frame) := by
  clear h
  refine ⟨?_, ?_, ?_⟩
  · intro frame
    unfold AnimationPath.get_animation_state_at_frame
    split_ifs with h1 h2 h3 h4 h5 h6
    · simp
    · simp
    · -- start-blend branch with `start_blend_frames = 0` is unreachable
      exact absurd (by simpa [AnimationPath.main_anim_start_frame, h4] using h3) h1
    · simp
    · simp
    · -- end-blend branch with `end_blend_frames = 0` is unreachable
      exfalso
      have h5' : p.main_anim_end_frame < frame := not_le.mp h5
      rw [AnimationPath.main_anim_end_frame, h6, sub_zero] at h5'
      exact h2 h5'
    · simp
  · intro h0 frame hf
    simpa [AnimationPath.main_anim_start_frame, h0] using hf
  · intro h0 frame hf
    simpa [AnimationPath.main_anim_end_frame, h0] using hf

/-- Witness for C10 at a concrete constructed path and frame `5`. -/
theorem animationPath_state_no_div_by_zero_witness :
    ((AnimationPath.mk (0,0,0) 0 (1,0,0) 10 "A" "B" "walk" 2 3 1).get_animation_state_at_frame
      5).isSome :=
  (animationPath_state_no_div_by_zero (0,0,0) 0 (1,0,0) 10 "A" "B" "walk" 2 3 1
    (AnimationPath.mk (0,0,0) 0 (1,0,0) 10 "A" "B" "walk" 2 3 1) (by norm_num [AnimationPath.make])).1 5

/-! #### Helper lemmas on the segment post-passes -/

theorem ensureAdjacentAux_chain (l : List SpeedSegment) :
    ∀ prev : SpeedSegment,
      List.Chain' (fun a b => b.start_frame = a.end_frame + 1)
        (prev :: ensureAdjacentAux prev l) := by
  induction l with
  | nil => intro prev; simp [ensureAdjacentAux]
  | cons t rest ih =>
    intro prev
    rw [ensureAdjacentAux, List.chain'_cons]
    exact ⟨rfl, ih _⟩

theorem ensureAdjacent_chain (l : List SpeedSegment) :
    List.Chain' (fun a b => b.start_frame = a.end_frame + 1) (ensureAdjacent l) := by
  cases l with
  | nil => simp [ensureAdjacent]
  | cons s rest => exact ensureAdjacentAux_chain rest s

theorem ensureAdjacent_ne_nil (l : List SpeedSegment) (h : l ≠ []) :
    ensureAdjacent l ≠ [] := by
  cases l with
  | nil => exact absurd rfl h
  | cons s rest => simp [ensureAdjacent]

theorem setLastEnd_ne_nil (ef : ℚ) (l : List SpeedSegment) (h : l ≠ []) :
    setLastEnd ef l ≠ [] := by
  rw [setLastEnd]
  cases hgl : l.getLast? with
  | none => exact absurd (List.getLast?_eq_none_iff.mp hgl) h
  | some s => simp

theorem setLastEnd_getLast (ef : ℚ) (l : List SpeedSegment) (h : l ≠ []) :
    ((setLastEnd ef l).getLast?.map SpeedSegment.end_frame) = some ef := by
  rw [setLastEnd]
  cases hgl : l.getLast? with
  | none => exact absurd (List.getLast?_eq_none_iff.mp hgl) h
  | some s => rw [List.getLast?_concat]; rfl

theorem setLastEnd_chain (ef : ℚ) (l : List SpeedSegment)
    (h : List.Chain' (fun a b => b.start_frame = a.end_frame + 1) l) :
    List.Chain' (fun a b => b.start_frame = a.end_frame + 1) (setLastEnd ef l) := by
  rw [setLastEnd]
  cases hgl : l.getLast? with
  | none => simp
  | some s =>
    have hne : l ≠ [] := by
      intro hnil; rw [hnil] at hgl; simp at hgl
    have hdec : l.dropLast ++ [s] = l := by
      conv_rhs => rw [← List.dropLast_append_getLast hne]
      congr 1
      simp only [List.getLast?_eq_getLast _ hne, Option.some.injEq] at hgl
      simp [hgl]
    rw [← hdec] at h
    rw [List.chain'_append] at h ⊢
    refine ⟨h.1, List.chain'_singleton _, ?_⟩
    intro x hx y hy
    simp only [List.head?_cons, Option.mem_def, Option.some.injEq] at hy
    subst hy
    exact h.2.2 x hx s (by simp)


/-- C8: for every non-empty frame-to-speed mapping and `start_frame ≤ end_frame`,
the segments returned by `convert_speed_data_to_segments` tile the timeline
with no gaps or overlaps: at least one segment is returned, every segment after
the first starts exactly one frame after its predecessor ends, and the last
segment ends exactly at `end_frame`. -/
theorem convert_speed_data_partition (entries : List (ℚ × ℚ))
    (start_frame end_frame min_segment_frames : ℚ) (hne : entries ≠ [])
    (hse : start_frame ≤ end_frame) :
    convert_speed_data_to_segments entries start_frame end_frame min_segment_frames ≠ []
    ∧ List.Chain' (fun a b => b.start_frame = a.end_frame + 1)
        (convert_speed_data_to_segments entries start_frame end_frame min_segment_frames)
    ∧ ((convert_speed_data_to_segments entries start_frame end_frame
          min_segment_frames).getLast?.map SpeedSegment.end_frame) = some end_frame := by
  clear hse
  rw [convert_speed_data_to_segments]
  rw [if_neg hne]
  have hframes : (entries.map Prod.fst).insertionSort (· ≤ ·) ≠ [] := by
    intro h
    have hlen := List.length_insertionSort (· ≤ ·) (entries.map Prod.fst)
    rw [h, List.length_map] at hlen
    exact hne (List.eq_nil_of_length_eq_zero hlen.symm)
  rw [if_neg hframes]
  set st := ((entries.map Prod.fst).insertionSort (· ≤ ·)).enum.foldl
    (convertStep entries end_frame min_segment_frames
      (((entries.map Prod.fst).insertionSort (· ≤ ·)).length - 1))
    (start_frame, lookupSpeed entries (((entries.map Prod.fst).insertionSort (· ≤ ·)).getD 0 0), [])
    with hst
  set segs2 := if st.2.2 = [] then
      ([⟨start_frame, end_frame, st.2.1, 0⟩] : List SpeedSegment) else st.2.2 with hsegs2
  have h2 : segs2 ≠ [] := by
    rw [hsegs2]
    split
    · simp
    · assumption
  have hadj := ensureAdjacent_ne_nil segs2 h2
  exact ⟨setLastEnd_ne_nil _ _ hadj,
    setLastEnd_chain _ _ (ensureAdjacent_chain segs2),
    setLastEnd_getLast _ _ hadj⟩

/-- Witness for C8 at a concrete two-entry mapping. -/
theorem convert_speed_data_partition_witness :
    convert_speed_data_to_segments [(0, 1), (5, 2)] 0 10 2 ≠ []
    ∧ List.Chain' (fun a b => b.start_frame = a.end_frame + 1)
        (convert_speed_data_to_segments [(0, 1), (5, 2)] 0 10 2)
    ∧ ((convert_speed_data_to_segments [(0, 1), (5, 2)] 0 10 2).getLast?.map
        SpeedSegment.end_frame) = some 10 :=
  convert_speed_data_partition [(0, 1), (5, 2)] 0 10 2 (by simp) (by norm_num)

/-- Invariant of the strip-creation loop: every produced speed change has a
nonzero speed and is either a full one-loop strip (`strip_duration` is one loop
at its speed, `loop_cycles = 1`), or was truncated at the timeline end
(`timeline_end = tEnd`, strictly short of one loop). -/
theorem calcChanges_mem (tEnd aLen : ℚ) (hA : 0 < aLen) :
    ∀ (segs : List SpeedSegment) (pos : ℚ) (lastSpeed : Option ℚ),
      (∀ seg ∈ segs, seg.speed_multiplier ≠ 0) →
      ∀ c ∈ calcChanges tEnd aLen segs pos lastSpeed,
        c.speed ≠ 0 ∧
        ((c.strip_duration = aLen / c.speed ∧ c.loop_cycles = 1) ∨
         (c.timeline_end = tEnd ∧ c.strip_duration < aLen / c.speed ∧ c.loop_cycles < 1)) := by
  intro segs
  induction segs with
  | nil => intro pos lastSpeed _ c hc; simp [calcChanges] at hc
  | cons seg rest ih =>
    intro pos lastSpeed hsp c hc
    have hrest : ∀ s ∈ rest, s.speed_multiplier ≠ 0 :=
      fun s hs => hsp s (List.mem_cons_of_mem _ hs)
    have hseg : seg.speed_multiplier ≠ 0 := hsp seg (List.mem_cons_self _ _)
    rw [calcChanges] at hc
    by_cases hsig : significantChange lastSpeed seg.speed_multiplier
    · rw [if_pos hsig] at hc
      by_cases hrem : tEnd - pos + 1 ≤ 0
      · rw [if_pos hrem] at hc
        simp at hc
      · rw [if_neg hrem] at hc
        rcases List.mem_cons.mp hc with hhd | htl
        · subst hhd
          refine ⟨hseg, ?_⟩
          by_cases htr : tEnd + 1 < pos + aLen / seg.speed_multiplier
          · right
            rw [if_pos htr]
            have hdpos : 0 < tEnd - pos + 1 := lt_of_not_le hrem
            have hdlt : tEnd - pos + 1 < aLen / seg.speed_multiplier := by linarith
            have hd0 : 0 < aLen / seg.speed_multiplier := lt_trans hdpos hdlt
            refine ⟨by ring, hdlt, ?_⟩
            exact (div_lt_one hd0).mpr hdlt
          · left
            rw [if_neg htr]
            have hd0ne : aLen / seg.speed_multiplier ≠ 0 :=
              div_ne_zero (ne_of_gt hA) hseg
            exact ⟨rfl, div_self hd0ne⟩
        · exact ih _ _ hrest c htl
    · rw [if_neg hsig] at hc
      exact ih _ _ hrest c hc

/-- C2: with a non-empty segment list, a positive `action_length` and nonzero
segment speeds (a zero speed raises `ZeroDivisionError` in the source and
produces nothing), every discrete speed change produced by
`_calculate_discrete_speed_changes` spans exactly one complete loop
(`strip_duration = action_length / speed`, hence `loop_cycles = 1`), except
that a strip truncated at the timeline end or the final strip extended to the
timeline end ends at `timelineEnd` and has `loop_cycles ≠ 1`. -/
theorem discrete_speed_changes_one_loop (speed_data : List SpeedSegment)
    (action_length : ℚ) (hne : speed_data ≠ []) (hA : 0 < action_length)
    (hsp : ∀ seg ∈ speed_data, seg.speed_multiplier ≠ 0) :
    ∀ c ∈ calculate_discrete_speed_changes speed_data action_length,
      (c.strip_duration = action_length / c.speed ∧ c.loop_cycles = 1) ∨
      (c.timeline_end = timelineEnd speed_data ∧
        c.strip_duration ≠ action_length / c.speed ∧ c.loop_cycles ≠ 1) := by
  obtain ⟨first, rest, rfl⟩ := List.exists_cons_of_ne_nil hne
  intro c hc
  rw [calculate_discrete_speed_changes] at hc
  set tEnd := timelineEnd (first :: rest) with htEnd
  set l := calcChanges tEnd action_length (first :: rest) first.start_frame none with hl
  have hmeml := calcChanges_mem tEnd action_length hA (first :: rest)
    first.start_frame none hsp
  have weaken : ∀ x : SpeedChange,
      (x.speed ≠ 0 ∧
        ((x.strip_duration = action_length / x.speed ∧ x.loop_cycles = 1) ∨
         (x.timeline_end = tEnd ∧ x.strip_duration < action_length / x.speed ∧
           x.loop_cycles < 1))) →
      (x.strip_duration = action_length / x.speed ∧ x.loop_cycles = 1) ∨
      (x.timeline_end = tEnd ∧ x.strip_duration ≠ action_length / x.speed ∧
        x.loop_cycles ≠ 1) := by
    rintro x ⟨_, h | ⟨he, hd, hc⟩⟩
    · exact Or.inl h
    · exact Or.inr ⟨he, ne_of_lt hd, ne_of_lt hc⟩
  rw [extendFinal] at hc
  split at hc
  case h_1 => exact weaken c (hmeml c hc)
  case h_2 lastc hgl =>
    split at hc
    case isFalse hlt => exact weaken c (hmeml c hc)
    case isTrue hlt =>
      rcases List.mem_append.mp hc with hmem | hmem
      · exact weaken c (hmeml c (List.dropLast_subset _ hmem))
      · have hceq : c = { lastc with
            timeline_end := tEnd,
            strip_duration := lastc.strip_duration + (tEnd - lastc.timeline_end),
            loop_cycles := (lastc.strip_duration + (tEnd - lastc.timeline_end)) /
              (action_length / lastc.speed) } := by
          simpa using hmem
        have hlast := hmeml lastc (List.mem_of_mem_getLast? (Option.mem_def.mpr hgl))
        rcases hlast with ⟨hspeed, hnorm | ⟨hend, _, _⟩⟩
        · right
          have hadj : 0 < tEnd - lastc.timeline_end := by linarith
          have hd0ne : action_length / lastc.speed ≠ 0 :=
            div_ne_zero (ne_of_gt hA) hspeed
          subst hceq
          refine ⟨rfl, ?_, ?_⟩
          · simp only
            rw [hnorm.1]
            intro heq
            have : tEnd - lastc.timeline_end = 0 := by linarith
            linarith
          · simp only
            rw [hnorm.1]
            intro heq
            rw [div_eq_one_iff_eq hd0ne] at heq
            have : tEnd - lastc.timeline_end = 0 := by linarith
            linarith
        · exact absurd (hend ▸ hlt) (lt_irrefl _)

/-- Witness for C2: two segments at speeds `1` and `1/2`, loop length `30`. -/
theorem discrete_speed_changes_one_loop_witness :
    ((0:ℚ) < 30) ∧
    ∀ c ∈ calculate_discrete_speed_changes
        [⟨0, 49, 1, 0⟩, ⟨50, 100, 1/2, 0⟩] 30,
      (c.strip_duration = 30 / c.speed ∧ c.loop_cycles = 1) ∨
      (c.timeline_end = timelineEnd [⟨0, 49, 1, 0⟩, ⟨50, 100, 1/2, 0⟩] ∧
        c.strip_duration ≠ 30 / c.speed ∧ c.loop_cycles ≠ 1) :=
  ⟨by norm_num,
    discrete_speed_changes_one_loop [⟨0, 49, 1, 0⟩, ⟨50, 100, 1/2, 0⟩] 30
      (by simp) (by norm_num) (by norm_num)⟩

/-- C4 counterexample: an action carrying `loop_start`/`loop_end` custom
properties (as `load_action_from_file` sets from the scene timeline):
`get_action_loop_range` returns those properties `(2, 10)`, not the action's
`frame_range = (0, 100)`. -/
theorem get_action_loop_range_counterexample :
    get_action_loop_range (some ⟨(0, 100), some (2, 10)⟩) none = (2, 10)
    ∧ (BlenderAction.mk (0, 100) (some (2, 10))).frame_range = (0, 100)
    ∧ ((2 : ℚ), (10 : ℚ)) ≠ ((0 : ℚ), (100 : ℚ)) := by
  refine ⟨rfl, rfl, ?_⟩
  intro h
  rw [Prod.mk.injEq] at h
  exact absurd h.1 (by norm_num)

/-- C4 (amended): `get_action_loop_range` prefers the `loop_start`/`loop_end`
custom properties; only in their absence does it return `action.frame_range`,
further truncated to `default_length` frames when that is nonzero and the
keyframe range exceeds twice `default_length`; and
`create_discrete_speed_nla_strips` uses the returned pair as
`action_frame_start`/`action_frame_end` of every strip it creates. -/
theorem action_loop_range_spec (a : BlenderAction) (dl : Option ℚ) (pp : PathProps)
    (act : BlenderAction) (sd : List SpeedSegment) :
    (∀ lp, a.loop_props = some lp → get_action_loop_range (some a) dl = lp)
    ∧ (a.loop_props = none → dl = none →
        get_action_loop_range (some a) dl = a.frame_range)
    ∧ (∀ d, a.loop_props = none → dl = some d →
        ¬(d ≠ 0 ∧ d * 2 < a.frame_range.2 - a.frame_range.1) →
        get_action_loop_range (some a) dl = a.frame_range)
    ∧ (∀ d, a.loop_props = none → dl = some d →
        (d ≠ 0 ∧ d * 2 < a.frame_range.2 - a.frame_range.1) →
        get_action_loop_range (some a) dl = (a.frame_range.1, a.frame_range.1 + d))
    ∧ (∀ strips, create_discrete_speed_nla_strips pp (some act) sd = some strips →
        ∀ s ∈ strips,
          s.action_frame_start =
            (get_action_loop_range (some act) (some pp.default_loop_length)).1
          ∧ s.action_frame_end =
            (get_action_loop_range (some act) (some pp.default_loop_length)).2) := by
  refine ⟨?_, ?_, ?_, ?_, ?_⟩
  · intro lp hlp
    rw [get_action_loop_range, hlp]
  · intro hlp hdl
    rw [get_action_loop_range, hlp, hdl]
  · intro d hlp hdl hcond
    rw [get_action_loop_range, hlp, hdl]
    simp only [if_neg hcond]
  · intro d hlp hdl hcond
    rw [get_action_loop_range, hlp, hdl]
    simp only [if_pos hcond]
  · intro strips h s hs
    by_cases han : pp.anim = "NONE"
    · rw [create_discrete_speed_nla_strips, if_pos han] at h
      exact absurd h (by simp)
    · rw [create_discrete_speed_nla_strips, if_neg han] at h
      dsimp only at h
      by_cases hch : calculate_discrete_speed_changes sd
          ((get_action_loop_range (some act) (some pp.default_loop_length)).2 -
            (get_action_loop_range (some act) (some pp.default_loop_length)).1) = []
      · rw [if_pos hch] at h
        exact absurd h (by simp)
      · rw [if_neg hch] at h
        have hstrips := (Option.some_injective _ h).symm
        subst hstrips
        obtain ⟨ic, _, rfl⟩ := List.mem_map.mp hs
        exact ⟨rfl, rfl⟩

/-- Witness for C4 (amended) at a concrete action without loop properties. -/
theorem action_loop_range_spec_witness :
    get_action_loop_range (some ⟨(0, 30), none⟩) none = (BlenderAction.mk (0, 30) none).frame_range :=
  (action_loop_range_spec ⟨(0, 30), none⟩ none
    ⟨"NONE", "NONE", "NONE", 30, 1, 0, 0⟩ ⟨(0, 30), none⟩ []).2.1 rfl rfl

/-- C5 (amended): blend frames are applied only at the outer ends of the strip
sequence built by `create_discrete_speed_nla_strips`: the first strip has
`blend_in = start_blend_frames` exactly when a start pose is set (`0`
otherwise), the last strip has `blend_out = end_blend_frames` exactly when an
end pose is set (`0` otherwise), and every other `blend_in`/`blend_out` — in
particular on both sides of every interior strip boundary — is `0`. -/
theorem nla_strips_blend_only_at_outer_ends (pp : PathProps) (ma : Option BlenderAction)
    (sd : List SpeedSegment) (strips : List NlaStrip)
    (h : create_discrete_speed_nla_strips pp ma sd = some strips) :
    ∀ i (hi : i < strips.length),
      (strips.get ⟨i, hi⟩).blend_in =
        (if i = 0 then (if pp.start_pose ≠ "NONE" then pp.start_blend_frames else 0) else 0)
      ∧ (strips.get ⟨i, hi⟩).blend_out =
        (if i = strips.length - 1 then
          (if pp.end_pose ≠ "NONE" then pp.end_blend_frames else 0) else 0) := by
  cases ma with
  | none =>
    rw [create_discrete_speed_nla_strips] at h
    split_ifs at h
  | some act =>
    by_cases han : pp.anim = "NONE"
    · rw [create_discrete_speed_nla_strips, if_pos han] at h
      exact absurd h (by simp)
    · rw [create_discrete_speed_nla_strips, if_neg han] at h
      dsimp only at h
      by_cases hch : calculate_discrete_speed_changes sd
          ((get_action_loop_range (some act) (some pp.default_loop_length)).2 -
            (get_action_loop_range (some act) (some pp.default_loop_length)).1) = []
      · rw [if_pos hch] at h
        exact absurd h (by simp)
      · rw [if_neg hch] at h
        have hstrips := (Option.some_injective _ h).symm
        subst hstrips
        intro i hi
        rw [List.get_eq_getElem]
        simp only [List.length_map, List.enum_length] at hi ⊢
        simp only [List.getElem_map, List.getElem_enum, buildStrip]
        exact ⟨trivial, trivial⟩

/-- C5 counterexample: a run producing two strips (speeds `1` then `1/2`, start
and end poses set, blend frames `5`).  The interior boundary between the two
strips gets no blend: the exiting strip has `blend_out = 0` and the entering
strip has `blend_in = 0`; only the outer ends of the sequence are blended
(`blend_in/blend_out` pairs are `(5, 0)` and `(0, 5)`). -/
theorem nla_strips_interior_boundary_unblended :
    (create_discrete_speed_nla_strips ⟨"Idle", "Sit", "Walk", 30, 1, 5, 5⟩
        (some ⟨(0, 30), none⟩) [⟨0, 49, 1, 0⟩, ⟨50, 100, 1/2, 0⟩]).map
      (fun l => l.map (fun s => (s.blend_in, s.blend_out)))
      = some [(5, 0), (0, 5)] := by
  norm_num +decide [create_discrete_speed_nla_strips, get_action_loop_range,
    calculate_discrete_speed_changes, timelineEnd, calcChanges, significantChange,
    extendFinal, buildStrip, List.enum, List.enumFrom, pyInt, abs_of_nonneg,
    abs_of_nonpos, abs_sub_comm]

/-- Witness for C5 (amended): a single-strip run; the lone strip is both first
and last, so it carries both outer blends. -/
theorem nla_strips_blend_only_at_outer_ends_witness :
    ((([⟨1, 0, 30, 0, 100, "REPLACE", "HOLD_FORWARD", 5, 5⟩] : List NlaStrip).get
        ⟨0, by norm_num⟩).blend_in = 5)
    ∧ ((([⟨1, 0, 30, 0, 100, "REPLACE", "HOLD_FORWARD", 5, 5⟩] : List NlaStrip).get
        ⟨0, by norm_num⟩).blend_out = 5) := by
  have h := nla_strips_blend_only_at_outer_ends ⟨"Idle", "Sit", "Walk", 30, 1, 5, 5⟩
    (some ⟨(0, 30), none⟩) [⟨0, 100, 1, 0⟩]
    [⟨1, 0, 30, 0, 100, "REPLACE", "HOLD_FORWARD", 5, 5⟩]
    (by norm_num +decide [create_discrete_speed_nla_strips, get_action_loop_range,
      calculate_discrete_speed_changes, timelineEnd, calcChanges, significantChange,
      extendFinal, buildStrip, List.enum, List.enumFrom, pyInt]) 0 (by norm_num)
  simpa +decide using h

/-! #### Helper lemmas on the speed pipeline -/

theorem getD_map_of_lt (f : ℚ → ℚ) (l : List ℚ) (i : ℕ) (h : i < l.length)
    (d dm : ℚ) : (l.map f).getD i dm = f (l.getD i d) := by
  rw [List.getD_eq_getElem l d h, List.getD_eq_getElem _ dm (by simpa using h)]
  simp

theorem foldl_min_le_init (l : List ℚ) : ∀ a : ℚ, l.foldl min a ≤ a := by
  induction l with
  | nil => intro a; simp
  | cons c rest ih => intro a; exact le_trans (ih (min a c)) (min_le_left a c)

theorem foldl_min_le_mem (l : List ℚ) (c : ℚ) (hc : c ∈ l) :
    ∀ a : ℚ, l.foldl min a ≤ c := by
  induction l with
  | nil => cases hc
  | cons x rest ih =>
    intro a
    rcases List.mem_cons.mp hc with rfl | hmem
    · exact le_trans (foldl_min_le_init rest _) (min_le_right a c)
    · exact ih hmem _

theorem listMin_le_mem (cs : List ℚ) (c : ℚ) (hc : c ∈ cs) : listMin cs ≤ c := by
  cases cs with
  | nil => cases hc
  | cons c0 rest =>
    rw [listMin]
    rcases List.mem_cons.mp hc with rfl | hmem
    · exact foldl_min_le_init rest c
    · exact foldl_min_le_mem rest c hmem c0

theorem init_le_foldl_max (l : List ℚ) : ∀ a : ℚ, a ≤ l.foldl max a := by
  induction l with
  | nil => intro a; simp
  | cons c rest ih => intro a; exact le_trans (le_max_left a c) (ih (max a c))

theorem mem_le_foldl_max (l : List ℚ) (c : ℚ) (hc : c ∈ l) :
    ∀ a : ℚ, c ≤ l.foldl max a := by
  induction l with
  | nil => cases hc
  | cons x rest ih =>
    intro a
    rcases List.mem_cons.mp hc with rfl | hmem
    · exact le_trans (le_max_right a c) (init_le_foldl_max rest _)
    · exact ih hmem _

theorem mem_le_listMax (cs : List ℚ) (c : ℚ) (hc : c ∈ cs) : c ≤ listMax cs := by
  cases cs with
  | nil => cases hc
  | cons c0 rest =>
    rw [listMax]
    rcases List.mem_cons.mp hc with rfl | hmem
    · exact init_le_foldl_max rest c
    · exact mem_le_foldl_max rest c hmem c0

theorem curvaturesToSpeeds_pos_branch (cs : List ℚ) (hne : cs ≠ [])
    (hlt : listMin cs < listMax cs) (hpos : 0 < listMax cs) :
    curvaturesToSpeeds cs =
      cs.map (fun c => if c = 0 then 1 else
        1 - (c - listMin cs) / (listMax cs - listMin cs)) := by
  obtain ⟨c0, rest, rfl⟩ := List.exists_cons_of_ne_nil hne
  rw [curvaturesToSpeeds]
  rw [if_pos ⟨hlt, hpos⟩]

theorem curvaturesToSpeeds_const_branch (cs : List ℚ) (hne : cs ≠ [])
    (hc : ¬(listMin cs < listMax cs ∧ 0 < listMax cs)) :
    curvaturesToSpeeds cs = List.replicate cs.length 1 := by
  obtain ⟨c0, rest, rfl⟩ := List.exists_cons_of_ne_nil hne
  rw [curvaturesToSpeeds]
  rw [if_neg hc]

theorem curvaturesToSpeeds_mem_bounds (cs : List ℚ) :
    ∀ x ∈ curvaturesToSpeeds cs, 0 ≤ x ∧ x ≤ 1 := by
  intro x hx
  cases cs with
  | nil => rw [curvaturesToSpeeds] at hx; simp at hx; simp [hx]
  | cons c0 rest =>
    by_cases hc : listMin (c0 :: rest) < listMax (c0 :: rest) ∧ 0 < listMax (c0 :: rest)
    · rw [curvaturesToSpeeds_pos_branch _ (List.cons_ne_nil c0 rest) hc.1 hc.2] at hx
      obtain ⟨c, hcm, rfl⟩ := List.mem_map.mp hx
      by_cases h0 : c = 0
      · rw [if_pos h0]; norm_num
      · rw [if_neg h0]
        have hmn := listMin_le_mem _ c hcm
        have hmx := mem_le_listMax _ c hcm
        have hden : 0 < listMax (c0 :: rest) - listMin (c0 :: rest) := by linarith [hc.1]
        have ht0 : 0 ≤ (c - listMin (c0 :: rest)) / (listMax (c0 :: rest) - listMin (c0 :: rest)) :=
          div_nonneg (by linarith) (le_of_lt hden)
        have ht1 : (c - listMin (c0 :: rest)) / (listMax (c0 :: rest) - listMin (c0 :: rest)) ≤ 1 :=
          (div_le_one hden).mpr (by linarith)
        constructor <;> linarith
    · rw [curvaturesToSpeeds_const_branch _ (List.cons_ne_nil c0 rest) hc] at hx
      rw [List.eq_of_mem_replicate hx]
      norm_num

theorem scanl_add_head (a : ℚ) (l : List ℚ) :
    (List.scanl (· + ·) a l).head? = some a := by
  cases l with
  | nil => rfl
  | cons d rest => rw [List.scanl_cons]; rfl

theorem scanl_add_getLast (l : List ℚ) :
    ∀ a : ℚ, (List.scanl (· + ·) a l).getLast? = some (a + l.sum) := by
  induction l with
  | nil => intro a; simp
  | cons d rest ih =>
    intro a
    rw [List.scanl_cons]
    have h := ih (a + d)
    cases hsc : List.scanl (· + ·) (a + d) rest with
    | nil => rw [hsc] at h; simp at h
    | cons b t =>
      rw [hsc] at h
      rw [List.singleton_append, List.getLast?_cons_cons, h, List.sum_cons]
      congr 1
      ring

theorem scanl_add_chain_lt (l : List ℚ) (hl : ∀ d ∈ l, 0 < d) :
    ∀ a : ℚ, List.Chain' (· < ·) (List.scanl (· + ·) a l) := by
  induction l with
  | nil => intro a; simp
  | cons d rest ih =>
    intro a
    rw [List.scanl_cons]
    have hd : 0 < d := hl d (List.mem_cons_self _ _)
    have htail := ih (fun x hx => hl x (List.mem_cons_of_mem _ hx)) (a + d)
    cases hsc : List.scanl (· + ·) (a + d) rest with
    | nil => simp
    | cons b t =>
      rw [hsc] at htail
      rw [List.singleton_append, List.chain'_cons]
      have hb : b = a + d := by
        have hh := scanl_add_head (a + d) rest
        rw [hsc] at hh
        have := hh
        simp at this
        exact this
      exact ⟨by rw [hb]; linarith, htail⟩

theorem segmentDistances_pos (minf maxf : ℚ) (speeds : List ℚ)
    (hmin : 0 < minf) (hle : minf ≤ maxf)
    (hbnd : ∀ x ∈ speeds, 0 ≤ x ∧ x ≤ 1) :
    ∀ d ∈ segmentDistances minf maxf speeds, 0 < d := by
  intro d hd
  rw [segmentDistances] at hd
  obtain ⟨i, hi, rfl⟩ := List.mem_map.mp hd
  have hi' := List.mem_range.mp hi
  have h1 : i < speeds.length := lt_of_lt_of_le hi' (Nat.sub_le _ _)
  have h2 : i + 1 < speeds.length := by omega
  have m1 : speeds.getD i 0 ∈ speeds := by
    rw [List.getD_eq_getElem _ _ h1]; exact List.getElem_mem h1
  have m2 : speeds.getD (i + 1) 0 ∈ speeds := by
    rw [List.getD_eq_getElem _ _ h2]; exact List.getElem_mem h2
  have b1 := hbnd _ m1
  have b2 := hbnd _ m2
  have havg : 0 ≤ (speeds.getD i 0 + speeds.getD (i + 1) 0) / 2 := by
    have : (0 : ℚ) ≤ speeds.getD i 0 + speeds.getD (i + 1) 0 := by linarith [b1.1, b2.1]
    linarith
  have : 0 ≤ ((speeds.getD i 0 + speeds.getD (i + 1) 0) / 2) * (maxf - minf) :=
    mul_nonneg havg (by linarith)
  linarith

/-- C1: the speed profile of `apply_speed_control` is computed by the claimed
pipeline.  Each interior-sample curvature is the turn-angle deviation from 90°
normalised by 90, with deviations under 2° treated as 0
(`curvatureOfDeviation`); curvatures below `curvature_threshold` are zeroed
(`thresholdCurvatures`), smoothed with the centred window-10 moving average
(`smoothCurvatures`), then inverted: a sample with smoothed curvature 0 gets
speed 1, otherwise `1 - (c - min)/(max - min)`, provided `max > min` and
`max > 0`; if all smoothed curvatures are equal or non-positive, every speed is
1. -/
theorem apply_speed_control_pipeline (thr : ℚ) (numPos : ℕ) (devs : List ℚ) :
    SpeedPipelineProps thr numPos devs := by
  refine ⟨?_, rfl, ?_, ?_, ?_⟩
  · intro i hi
    rw [computeCurvatures, getD_map_of_lt curvatureOfDeviation devs i hi 0 0]
    rfl
  · intro i hi h0
    have hne : smoothedCurvatureList thr numPos devs ≠ [] := by
      intro h
      rw [h] at hi
      simp at hi
    rw [speedProfile]
    by_cases hc : listMin (smoothedCurvatureList thr numPos devs) <
        listMax (smoothedCurvatureList thr numPos devs) ∧
        0 < listMax (smoothedCurvatureList thr numPos devs)
    · rw [curvaturesToSpeeds_pos_branch _ hne hc.1 hc.2,
        getD_map_of_lt _ _ i hi 0 1, h0]
      simp
    · rw [curvaturesToSpeeds_const_branch _ hne hc,
        List.getD_eq_getElem _ _ (by simpa using hi), List.getElem_replicate]
  · intro hlt hpos i hi hne0
    have hne : smoothedCurvatureList thr numPos devs ≠ [] := by
      intro h
      rw [h] at hi
      simp at hi
    rw [speedProfile, curvaturesToSpeeds_pos_branch _ hne hlt hpos,
      getD_map_of_lt _ _ i hi 0 1, if_neg hne0]
  · intro hne hcond
    have hc : ¬(listMin (smoothedCurvatureList thr numPos devs) <
        listMax (smoothedCurvatureList thr numPos devs) ∧
        0 < listMax (smoothedCurvatureList thr numPos devs)) := by
      rintro ⟨h1, h2⟩
      rcases hcond with he | hle0
      · exact absurd h1 (by rw [he]; exact lt_irrefl _)
      · linarith
    rw [speedProfile, curvaturesToSpeeds_const_branch _ hne hc]

/-- Witness for C1 at a concrete deviation list. -/
theorem apply_speed_control_pipeline_witness :
    SpeedPipelineProps (1/1000) 7 [1, 5, 30] :=
  apply_speed_control_pipeline (1/1000) 7 [1, 5, 30]

/-- C7: the integrated re-parameterisation of `apply_speed_control` is
monotone whenever `0 < min_speed_factor ≤ max_speed_factor` and the curve
yields at least two speed samples: the cumulative distances are strictly
increasing, the normalised positions start at 0, end at 1 and are
non-decreasing, and every keyframed `offset_factor` value lies in `[0, 1]`. -/
theorem apply_speed_control_reparam (thr minf maxf : ℚ) (numPos totalFrames : ℕ)
    (devs : List ℚ) (hmin : 0 < minf) (hle : minf ≤ maxf)
    (hlen : 2 ≤ (speedProfile thr numPos devs).length) :
    SpeedReparamProps thr minf maxf numPos totalFrames devs := by
  have hbnd : ∀ x ∈ speedProfile thr numPos devs, 0 ≤ x ∧ x ≤ 1 := by
    rw [speedProfile]
    exact curvaturesToSpeeds_mem_bounds _
  have hdpos := segmentDistances_pos minf maxf _ hmin hle hbnd
  have hchain := scanl_add_chain_lt _ hdpos 0
  have hdne : segmentDistances minf maxf (speedProfile thr numPos devs) ≠ [] := by
    rw [segmentDistances]
    intro h
    have hlen2 := congrArg List.length h
    simp only [List.length_map, List.length_range, List.length_nil] at hlen2
    omega
  have hsum : 0 < (segmentDistances minf maxf (speedProfile thr numPos devs)).sum :=
    List.sum_pos _ hdpos hdne
  have htot : (cumulativeDistances
      (segmentDistances minf maxf (speedProfile thr numPos devs))).getLast? =
      some (segmentDistances minf maxf (speedProfile thr numPos devs)).sum := by
    rw [cumulativeDistances]
    simpa using scanl_add_getLast _ 0
  have htotD : (cumulativeDistances
      (segmentDistances minf maxf (speedProfile thr numPos devs))).getLast?.getD 0 =
      (segmentDistances minf maxf (speedProfile thr numPos devs)).sum := by
    rw [htot]
    rfl
  refine ⟨hchain, ?_, ?_, ?_, ?_⟩
  · rw [normalizedPositions]
    rw [htotD, if_pos hsum, List.head?_map, cumulativeDistances, scanl_add_head]
    simp
  · rw [normalizedPositions]
    rw [htotD, if_pos hsum, List.getLast?_map, htot, Option.map_some']
    rw [div_self (ne_of_gt hsum)]
  · rw [normalizedPositions]
    rw [htotD, if_pos hsum, List.chain'_map]
    refine List.Chain'.imp ?_ hchain
    intro a b hab
    exact div_le_div_of_nonneg_right (le_of_lt hab) (le_of_lt hsum)
  · intro x hx
    rw [offsetFactors] at hx
    obtain ⟨fo, _, rfl⟩ := List.mem_map.mp hx
    constructor
    · exact le_max_left 0 _
    · exact max_le (by norm_num) (min_le_left 1 _)

theorem curvaturesToSpeeds_length (cs : List ℚ) (h : cs ≠ []) :
    (curvaturesToSpeeds cs).length = cs.length := by
  obtain ⟨c0, rest, rfl⟩ := List.exists_cons_of_ne_nil h
  rw [curvaturesToSpeeds]
  split
  · simp
  · simp

theorem smoothedCurvatureList_singleton_length :
    (smoothedCurvatureList (1/1000) 7 [5]).length = 3 := by
  rw [smoothedCurvatureList]
  simp [smoothCurvatures, thresholdCurvatures, addEdgeCurvatures, computeCurvatures]

/-- Witness for C7 at a concrete deviation list (the profile has 3 samples). -/
theorem apply_speed_control_reparam_witness :
    ((0 : ℚ) < 1/2) ∧ ((1 : ℚ)/2 ≤ 1) ∧
    2 ≤ (speedProfile (1/1000) 7 [5]).length ∧
    SpeedReparamProps (1/1000) (1/2) 1 7 10 [5] := by
  have h3 := smoothedCurvatureList_singleton_length
  have hlen : 2 ≤ (speedProfile (1/1000) 7 [5]).length := by
    rw [speedProfile, curvaturesToSpeeds_length _ (by
      intro hh
      rw [hh] at h3
      simp at h3), h3]
    norm_num
  exact ⟨by norm_num, by norm_num, hlen,
    apply_speed_control_reparam (1/1000) (1/2) 1 7 10 [5] (by norm_num) (by norm_num) hlen⟩

/-! #### Helper lemmas on the Douglas-Peucker recursion -/

theorem findMaxDist_cases (pd : (ℚ × ℚ) → (ℚ × ℚ) → (ℚ × ℚ) → ℚ)
    (points : List (ℚ × ℚ)) (s e : ℕ) :
    findMaxDist pd points s e = (0, s) ∨
    (findMaxDist pd points s e).2 ∈ List.range' (s + 1) (e - (s + 1)) := by
  rw [findMaxDist]
  have main : ∀ (L : List ℕ) (acc : ℚ × ℕ),
      L.foldl (fun acc i =>
        let d := pd (points.getD i (0, 0)) (points.getD s (0, 0)) (points.getD e (0, 0))
        if acc.1 < d then (d, i) else acc) acc = acc ∨
      (L.foldl (fun acc i =>
        let d := pd (points.getD i (0, 0)) (points.getD s (0, 0)) (points.getD e (0, 0))
        if acc.1 < d then (d, i) else acc) acc).2 ∈ L := by
    intro L
    induction L with
    | nil => intro acc; exact Or.inl rfl
    | cons i L ih =>
      intro acc
      rw [List.foldl_cons]
      rcases ih (if acc.1 < pd (points.getD i (0, 0)) (points.getD s (0, 0))
          (points.getD e (0, 0)) then
          (pd (points.getD i (0, 0)) (points.getD s (0, 0)) (points.getD e (0, 0)), i)
        else acc) with heq | hmem
      · rw [heq]
        split_ifs with hlt
        · exact Or.inr (List.mem_cons_self _ _)
        · exact Or.inl rfl
      · exact Or.inr (List.mem_cons_of_mem _ hmem)
  exact main _ _

theorem findMaxDist_le (pd : (ℚ × ℚ) → (ℚ × ℚ) → (ℚ × ℚ) → ℚ)
    (points : List (ℚ × ℚ)) (s e : ℕ) (tol : ℚ) (h0 : 0 ≤ tol)
    (hd : ∀ i ∈ List.range' (s + 1) (e - (s + 1)),
      pd (points.getD i (0, 0)) (points.getD s (0, 0)) (points.getD e (0, 0)) ≤ tol) :
    (findMaxDist pd points s e).1 ≤ tol := by
  rw [findMaxDist]
  have main : ∀ (L : List ℕ) (acc : ℚ × ℕ),
      (∀ i ∈ L, pd (points.getD i (0, 0)) (points.getD s (0, 0))
        (points.getD e (0, 0)) ≤ tol) →
      acc.1 ≤ tol →
      (L.foldl (fun acc i =>
        let d := pd (points.getD i (0, 0)) (points.getD s (0, 0)) (points.getD e (0, 0))
        if acc.1 < d then (d, i) else acc) acc).1 ≤ tol := by
    intro L
    induction L with
    | nil => intro acc _ hacc; exact hacc
    | cons i L ih =>
      intro acc hL hacc
      rw [List.foldl_cons]
      refine ih _ (fun j hj => hL j (List.mem_cons_of_mem _ hj)) ?_
      dsimp only
      split_ifs with hlt
      · exact hL i (List.mem_cons_self _ _)
      · exact hacc
  exact main _ _ hd h0

theorem douglas_peucker_recursive_shape (pd : (ℚ × ℚ) → (ℚ × ℚ) → (ℚ × ℚ) → ℚ)
    (points : List (ℚ × ℚ)) (tol : ℚ) :
    ∀ (fuel s e : ℕ) (l : List ℕ),
      douglas_peucker_recursive pd points tol fuel s e = some l →
      2 ≤ l.length ∧ l.head? = some s ∧ l.getLast? = some e := by
  intro fuel
  induction fuel with
  | zero =>
    intro s e l h
    exact absurd h (by rw [douglas_peucker_recursive]; simp)
  | succ f ih =>
    intro s e l h
    rw [douglas_peucker_recursive] at h
    split_ifs at h with hbase hrec
    · obtain rfl : [s, e] = l := Option.some_injective _ h
      exact ⟨by norm_num, rfl, rfl⟩
    · cases h1 : douglas_peucker_recursive pd points tol f s
          (findMaxDist pd points s e).2 with
      | none => rw [h1] at h; simp at h
      | some l1 =>
        cases h2 : douglas_peucker_recursive pd points tol f
            (findMaxDist pd points s e).2 e with
        | none => rw [h1, h2] at h; simp at h
        | some l2 =>
          rw [h1, h2] at h
          simp only at h
          obtain rfl : l1.dropLast ++ l2 = l := Option.some_injective _ h
          obtain ⟨hlen1, hh1, ht1⟩ := ih s _ l1 h1
          obtain ⟨hlen2, hh2, ht2⟩ := ih _ e l2 h2
          have hne2 : l2 ≠ [] := by
            intro hnil
            rw [hnil] at hlen2
            simp at hlen2
          refine ⟨?_, ?_, ?_⟩
          · rw [List.length_append, List.length_dropLast]
            omega
          · obtain ⟨a, b, t, rfl⟩ : ∃ a b t, l1 = a :: b :: t := by
              match l1, hlen1 with
              | a :: b :: t, _ => exact ⟨a, b, t, rfl⟩
            have ha : a = s := by simpa using hh1
            subst ha
            rfl
          · rw [List.getLast?_append_of_ne_nil _ hne2]
            exact ht2
    · obtain rfl : [s, e] = l := Option.some_injective _ h
      exact ⟨by norm_num, rfl, rfl⟩

theorem douglas_peucker_fuel (pd : (ℚ × ℚ) → (ℚ × ℚ) → (ℚ × ℚ) → ℚ)
    (points : List (ℚ × ℚ)) (tol : ℚ) (h0 : 0 ≤ tol) :
    ∀ (fuel s e : ℕ), e - s < fuel →
      (douglas_peucker_recursive pd points tol fuel s e).isSome := by
  intro fuel
  induction fuel with
  | zero => intro s e h; omega
  | succ f ih =>
    intro s e h
    rw [douglas_peucker_recursive]
    split_ifs with hbase hrec
    · simp
    · rcases findMaxDist_cases pd points s e with heq | hmem
      · rw [heq] at hrec
        exact absurd (lt_of_le_of_lt h0 hrec) (lt_irrefl 0)
      · have hmi := List.mem_range'_1.mp hmem
        have hse : s + 1 < e := by omega
        have i1 := ih s (findMaxDist pd points s e).2 (by omega)
        have i2 := ih (findMaxDist pd points s e).2 e (by omega)
        obtain ⟨l1, hl1⟩ := Option.isSome_iff_exists.mp i1
        obtain ⟨l2, hl2⟩ := Option.isSome_iff_exists.mp i2
        rw [hl1, hl2]
        simp
    · simp

/-- C3 (amended): for at least 2 points with strictly increasing x-coordinates
and every NONNEGATIVE tolerance, `douglas_peucker_reduce` terminates and
returns a sorted, duplicate-free index list containing `0` and
`len(points) - 1`; and whenever every intermediate point is within tolerance
of the endpoint line it returns exactly `[0, len(points) - 1]`.  (For a
negative tolerance the source recursion can diverge — see the
counterexample.) -/
theorem douglas_peucker_reduce_spec (pd : (ℚ × ℚ) → (ℚ × ℚ) → (ℚ × ℚ) → ℚ)
    (points : List (ℚ × ℚ)) (tol : ℚ) (hn : 2 ≤ points.length) (htol : 0 ≤ tol)
    (hx : List.Chain' (fun p q => p.1 < q.1) points) :
    ∃ l, douglas_peucker_reduce pd points tol = some l
      ∧ l.Sorted (· ≤ ·) ∧ l.Nodup ∧ 0 ∈ l ∧ points.length - 1 ∈ l
      ∧ ((∀ i, 0 < i → i < points.length - 1 →
            pd (points.getD i (0, 0)) (points.getD 0 (0, 0))
              (points.getD (points.length - 1) (0, 0)) ≤ tol) →
          l = [0, points.length - 1]) := by
  clear hx
  rw [douglas_peucker_reduce, if_neg (by omega)]
  have hfuel := douglas_peucker_fuel pd points tol htol (points.length + 1) 0
    (points.length - 1) (by omega)
  obtain ⟨l0, hl0⟩ := Option.isSome_iff_exists.mp hfuel
  rw [hl0]
  obtain ⟨hlen0, hh0, ht0⟩ := douglas_peucker_recursive_shape pd points tol _ _ _ _ hl0
  refine ⟨l0.dedup.insertionSort (· ≤ ·), rfl, List.sorted_insertionSort _ _, ?_, ?_, ?_, ?_⟩
  · exact ((List.perm_insertionSort _ _).nodup_iff).mpr (List.nodup_dedup _)
  · have h0 : (0 : ℕ) ∈ l0 := List.mem_of_mem_head? (Option.mem_def.mpr hh0)
    exact ((List.perm_insertionSort _ _).mem_iff).mpr (List.mem_dedup.mpr h0)
  · have hlast : points.length - 1 ∈ l0 :=
      List.mem_of_mem_getLast? (Option.mem_def.mpr ht0)
    exact ((List.perm_insertionSort _ _).mem_iff).mpr (List.mem_dedup.mpr hlast)
  · intro hdist
    have hcalc : douglas_peucker_recursive pd points tol (points.length + 1) 0
        (points.length - 1) = some [0, points.length - 1] := by
      rw [douglas_peucker_recursive]
      by_cases hb : points.length - 1 ≤ 0 + 1
      · rw [if_pos hb]
      · rw [if_neg hb]
        have hmd : (findMaxDist pd points 0 (points.length - 1)).1 ≤ tol := by
          refine findMaxDist_le pd points 0 (points.length - 1) tol htol ?_
          intro i hi
          have hi' := List.mem_range'_1.mp hi
          exact hdist i (by omega) (by omega)
        rw [if_neg (not_lt.mpr hmd)]
    rw [hcalc] at hl0
    obtain rfl : [0, points.length - 1] = l0 := Option.some_injective _ hl0
    have hne01 : (0 : ℕ) ≠ points.length - 1 := by omega
    rw [List.Nodup.dedup (by simp [hne01])]
    refine List.Sorted.insertionSort_eq ?_
    simp

/-- Witness for C3 (amended) at a concrete two-point input. -/
theorem douglas_peucker_reduce_spec_witness :
    ∃ l, douglas_peucker_reduce perpendicular_distance [(0, 0), (1, 1)] 0 = some l
      ∧ l.Sorted (· ≤ ·) ∧ l.Nodup ∧ 0 ∈ l
      ∧ ([((0 : ℚ), (0 : ℚ)), (1, 1)].length - 1) ∈ l
      ∧ ((∀ i, 0 < i → i < [((0 : ℚ), (0 : ℚ)), (1, 1)].length - 1 →
            perpendicular_distance ([((0 : ℚ), (0 : ℚ)), (1, 1)].getD i (0, 0))
              ([((0 : ℚ), (0 : ℚ)), (1, 1)].getD 0 (0, 0))
              ([((0 : ℚ), (0 : ℚ)), (1, 1)].getD
                ([((0 : ℚ), (0 : ℚ)), (1, 1)].length - 1) (0, 0)) ≤ 0) →
          l = [0, [((0 : ℚ), (0 : ℚ)), (1, 1)].length - 1]) :=
  douglas_peucker_reduce_spec perpendicular_distance [(0, 0), (1, 1)] 0
    (by norm_num) (by norm_num)
    (by simp only [List.chain'_cons, List.chain'_singleton, and_true]; norm_num)

/-- At the three collinear points `(0,0), (1,0), (2,0)` with tolerance `-1`,
every recursion depth yields `none`: the maximum distance is `0 > -1` while
`max_index` stays at `start_idx`, so `douglas_peucker_recursive (0, 2)` calls
itself with the same arguments forever (a Python `RecursionError`). -/
theorem douglas_peucker_diverges_aux :
    ∀ fuel, douglas_peucker_recursive perpendicular_distance
      [(0, 0), (1, 0), (2, 0)] (-1) fuel 0 2 = none := by
  have hpd : perpendicular_distance (1, 0) 0 (2, 0) = 0 := by
    rw [perpendicular_distance]
    rw [if_neg (by norm_num)]
    dsimp only
    split
    · norm_num
    · rfl
  have hfmd : findMaxDist perpendicular_distance [(0, 0), (1, 0), (2, 0)] 0 2 = (0, 0) := by
    rw [findMaxDist]
    norm_num [List.range', List.getD, hpd]
  intro fuel
  induction fuel with
  | zero => rw [douglas_peucker_recursive]
  | succ f ih =>
    rw [douglas_peucker_recursive]
    rw [if_neg (by norm_num), hfmd]
    rw [if_pos (by norm_num)]
    rw [ih]
    cases h00 : douglas_peucker_recursive perpendicular_distance
        [(0, 0), (1, 0), (2, 0)] (-1) f 0 0 with
    | none => rfl
    | some l => rfl

/-- C3 counterexample: at the collinear points `(0,0), (1,0), (2,0)` (strictly
increasing x) with tolerance `-1`, `douglas_peucker_reduce` does not return a
list at all — the source recursion diverges (`RecursionError`), modelled by
`none` — so the claim's "for every tolerance" fails; a nonnegative tolerance is
required. -/
theorem douglas_peucker_reduce_counterexample :
    douglas_peucker_reduce perpendicular_distance [(0, 0), (1, 0), (2, 0)] (-1) = none := by
  rw [douglas_peucker_reduce]
  rw [if_neg (by norm_num)]
  have h4 : ([((0 : ℚ), (0 : ℚ)), (1, 0), (2, 0)].length + 1) = 4 := by norm_num
  have h2 : ([((0 : ℚ), (0 : ℚ)), (1, 0), (2, 0)].length - 1) = 2 := by norm_num
  rw [h4, h2, douglas_peucker_diverges_aux 4]
  rfl

/-- `calculate_bezier_handles` only rewrites handles: the (frame, value)
projection of the list is unchanged. -/
theorem calculate_bezier_handles_map_pv (l : List KeyframeData) (o : List (ℚ × ℚ)) :
    (calculate_bezier_handles l o).map (fun k => (k.frame, k.value)) =
      l.map (fun k => (k.frame, k.value)) := by
  rw [calculate_bezier_handles]
  split
  · rfl
  · apply List.ext_getElem
    · simp
    · intro i h1 h2
      simp only [List.getElem_map, List.getElem_range, List.length_map,
        List.length_range] at h1 ⊢
      rw [List.getD_eq_getElem]
      rfl

/-- `calculate_bezier_handles` preserves the list length. -/
theorem calculate_bezier_handles_length (l : List KeyframeData) (o : List (ℚ × ℚ)) :
    (calculate_bezier_handles l o).length = l.length := by
  have h := congrArg List.length (calculate_bezier_handles_map_pv l o)
  simpa using h

/-- `calculate_bezier_handles` preserves frame-sortedness. -/
theorem calculate_bezier_handles_chain (l : List KeyframeData) (o : List (ℚ × ℚ))
    (h : List.Chain' (fun a b => a.frame ≤ b.frame) l) :
    List.Chain' (fun a b => a.frame ≤ b.frame) (calculate_bezier_handles l o) := by
  have hmap : (calculate_bezier_handles l o).map (fun k => k.frame)
      = l.map (fun k => k.frame) := by
    have h1 := congrArg (List.map Prod.fst) (calculate_bezier_handles_map_pv l o)
    simpa [List.map_map, Function.comp] using h1
  have h2 : List.Chain' (· ≤ ·) (l.map (fun k => k.frame)) :=
    (List.chain'_map (fun k : KeyframeData => k.frame)).mpr h
  rw [← hmap] at h2
  exact (List.chain'_map (fun k : KeyframeData => k.frame)).mp h2

/-- `insertKeyframe` adds exactly one element. -/
theorem insertKeyframe_length (nk : KeyframeData) :
    ∀ l : List KeyframeData, (insertKeyframe nk l).length = l.length + 1 := by
  intro l
  induction l with
  | nil => rfl
  | cons k rest ih =>
    rw [insertKeyframe]
    split
    · simp
    · simp [ih]

/-- `insertKeyframe` is, up to permutation, consing the new (frame, value). -/
theorem insertKeyframe_map_pv (nk : KeyframeData) :
    ∀ l : List KeyframeData,
      ((insertKeyframe nk l).map (fun k => (k.frame, k.value))).Perm
        ((nk.frame, nk.value) :: l.map (fun k => (k.frame, k.value))) := by
  intro l
  induction l with
  | nil => simp [insertKeyframe]
  | cons k rest ih =>
    rw [insertKeyframe]
    split
    · exact List.Perm.refl _
    · simp only [List.map_cons]
      exact (List.Perm.cons _ ih).trans (List.Perm.swap _ _ _)

/-- `insertKeyframe` preserves frame-sortedness. -/
theorem insertKeyframe_chain (nk : KeyframeData) :
    ∀ l : List KeyframeData, List.Chain' (fun a b => a.frame ≤ b.frame) l →
      List.Chain' (fun a b => a.frame ≤ b.frame) (insertKeyframe nk l) := by
  intro l
  induction l with
  | nil =>
    intro _
    simp [insertKeyframe]
  | cons k rest ih =>
    intro h
    obtain ⟨h1, h2⟩ := List.chain'_cons'.mp h
    rw [insertKeyframe]
    split
    case isTrue hlt =>
      refine List.chain'_cons'.mpr ⟨?_, h⟩
      intro y hy
      simp only [List.head?_cons, Option.mem_def, Option.some.injEq] at hy
      subst hy
      exact le_of_lt hlt
    case isFalse hlt =>
      refine List.chain'_cons'.mpr ⟨?_, ih h2⟩
      intro y hy
      cases rest with
      | nil =>
        simp only [insertKeyframe, List.head?_cons, Option.mem_def,
          Option.some.injEq] at hy
        subst hy
        exact le_of_not_lt hlt
      | cons r rest' =>
        rw [insertKeyframe] at hy
        by_cases hlt2 : nk.frame < r.frame
        · rw [if_pos hlt2] at hy
          simp only [List.head?_cons, Option.mem_def, Option.some.injEq] at hy
          subst hy
          exact le_of_not_lt hlt
        · rw [if_neg hlt2] at hy
          simp only [List.head?_cons, Option.mem_def, Option.some.injEq] at hy
          subst hy
          exact h1 r (by simp)

/-- A successful `refinement_step` inserts the original point whose frame is
the argmax of the interpolation error and recomputes handles. -/
theorem refinement_step_some (original : List (ℚ × ℚ)) (tol : ℚ)
    (kfs l : List KeyframeData) (h : refinement_step original tol kfs = some l) :
    ∃ p : ℚ × ℚ, p ∈ original
      ∧ findMaxErrorFrame original
          ((evaluate_bezier_curve kfs (original.headD (0, 0)).1
            ((original.getLast?).getD (0, 0)).1 original.length).map Prod.fst)
          ((evaluate_bezier_curve kfs (original.headD (0, 0)).1
            ((original.getLast?).getD (0, 0)).1 original.length).map Prod.snd) = some p.1
      ∧ l = calculate_bezier_handles
          (insertKeyframe ⟨p.1, p.2, none, none⟩ kfs) original := by
  rw [refinement_step] at h
  split at h
  · exact absurd h (by simp)
  · split at h
    case h_1 => exact absurd h (by simp)
    case h_2 fr hfr =>
      split at h
      case h_1 => exact absurd h (by simp)
      case h_2 p hp =>
        refine ⟨p, List.mem_of_find?_eq_some hp, ?_, ?_⟩
        · have hpf : p.1 = fr := by
            have hb := List.find?_some hp
            simpa using hb
          rw [hpf]
          exact hfr
        · exact (Option.some_inj.mp h).symm

/-- `iterative_refinement` adds at most one keyframe per iteration, so it
terminates with at most `maxIter` new keyframes. -/
theorem iterative_refinement_length (orig : List (ℚ × ℚ)) (tol : ℚ) :
    ∀ (maxIter : ℕ) (kfs : List KeyframeData),
      (iterative_refinement kfs orig tol maxIter).length ≤ kfs.length + maxIter := by
  intro maxIter
  induction maxIter with
  | zero =>
    intro kfs
    simp [iterative_refinement]
  | succ n ih =>
    intro kfs
    rw [iterative_refinement]
    split
    case h_1 => simp
    case h_2 k hk =>
      obtain ⟨p, _, _, hkeq⟩ := refinement_step_some orig tol kfs k hk
      have hlen : k.length = kfs.length + 1 := by
        rw [hkeq, calculate_bezier_handles_length, insertKeyframe_length]
      calc (iterative_refinement k orig tol n).length ≤ k.length + n := ih k
        _ = kfs.length + (n + 1) := by omega

/-- `iterative_refinement` keeps the keyframe list sorted by frame. -/
theorem iterative_refinement_chain (orig : List (ℚ × ℚ)) (tol : ℚ) :
    ∀ (maxIter : ℕ) (kfs : List KeyframeData),
      List.Chain' (fun a b => a.frame ≤ b.frame) kfs →
      List.Chain' (fun a b => a.frame ≤ b.frame)
        (iterative_refinement kfs orig tol maxIter) := by
  intro maxIter
  induction maxIter with
  | zero =>
    intro kfs h
    simpa [iterative_refinement] using h
  | succ n ih =>
    intro kfs h
    rw [iterative_refinement]
    split
    case h_1 => exact h
    case h_2 k hk =>
      obtain ⟨p, _, _, hkeq⟩ := refinement_step_some orig tol kfs k hk
      refine ih k ?_
      rw [hkeq]
      exact calculate_bezier_handles_chain _ _ (insertKeyframe_chain _ _ h)

/-- **C6.** For every dense point list with at least one point and every
error tolerance and iteration bound, `iterative_refinement` performs at most
`max_iterations` iterations and terminates (it is a total function); it stops
immediately — returning the input keyframes — when the maximum absolute error
between the original points and the Bezier-evaluated approximation is at most
the tolerance; the result has at most `max_iterations` new keyframes; a
frame-sorted keyframe list stays sorted by frame; and each successful
iteration inserts exactly one new keyframe, taken from the original point
whose frame has the maximum error. -/
theorem iterative_refinement_spec (kfs : List KeyframeData) (orig : List (ℚ × ℚ))
    (tol : ℚ) (maxIter : ℕ) (horig : orig ≠ [])
    (hsort : List.Chain' (fun a b => a.frame ≤ b.frame) kfs) :
    RefinementProps kfs orig tol maxIter := by
  refine ⟨?_, iterative_refinement_length orig tol maxIter kfs,
    iterative_refinement_chain orig tol maxIter kfs hsort, ?_⟩
  · intro hconv
    cases maxIter with
    | zero => rfl
    | succ n =>
      rw [iterative_refinement]
      have hstep : refinement_step orig tol kfs = none := by
        rw [refinement_step, if_pos hconv]
      rw [hstep]
  · intro l hl
    obtain ⟨p, hpmem, hfr, hleq⟩ := refinement_step_some orig tol kfs l hl
    refine ⟨p.1, p.2, ?_, hfr, ?_, ?_⟩
    · rw [Prod.mk.eta]
      exact hpmem
    · rw [hleq, calculate_bezier_handles_length, insertKeyframe_length]
    · rw [hleq, calculate_bezier_handles_map_pv]
      exact insertKeyframe_map_pv _ kfs

/-- C6 witness: a concrete two-keyframe, two-point instance satisfying the
hypotheses of `iterative_refinement_spec`. -/
theorem iterative_refinement_spec_witness :
    ([((0 : ℚ), (0 : ℚ)), (1, 1)] ≠ ([] : List (ℚ × ℚ)))
      ∧ List.Chain' (fun a b => a.frame ≤ b.frame)
          [(⟨0, 0, none, none⟩ : KeyframeData), ⟨1, 1, none, none⟩]
      ∧ RefinementProps [⟨0, 0, none, none⟩, ⟨1, 1, none, none⟩]
          [(0, 0), (1, 1)] (1 / 2) 3 :=
  ⟨by simp, by norm_num [List.chain'_cons],
    iterative_refinement_spec _ _ _ 3 (by simp) (by norm_num [List.chain'_cons])⟩
